import Mathlib

/-!
Verification development for `rpmautospec/changelog.py`.

The single source file implements a changelog derivation engine:
`produce_changelog(repopath)` copies the repository into a scoped temporary
directory, walks commits newest-first (`GIT_SORT_TIME`), skips merge commits,
stops at a 730-day recency cutoff or when the `<basename>.spec` file vanishes,
queries `rpm --qf "%{name}  %{version}  %{release}\n" --specfile <name>.spec`
for each surviving commit, records relevant commits (whose diff touches a
`.spec`/`.patch` file) in an insertion-ordered mapping keyed by the parsed
output tuple, and finally renders one block per commit, group by group.

The shallow embedding below mirrors that code.  The opaque collaborators
(pygit2, the filesystem, the `rpm` subprocess) are modelled as data carried by
each commit: the walk order is the input list (the provider's
newest-first-by-time order), `specExists` is the observed presence of the spec
file after checking the commit out, `queryResult` is the observed behaviour of
the `rpm` subprocess for that commit's tree, and `changedFiles` is the list of
`d.new_file.path` values of the diff against the first parent (or against the
empty tree for a parentless commit); `diff.stats.files_changed` is the number
of deltas of that same diff, i.e. `changedFiles.length`.  Byte streams from
the subprocess are modelled as their decoded text.  `datetime` values are
modelled as integer epoch seconds (`datetime.timedelta(days=730)` is
`730 * 86400` seconds).  Observable side effects (checkouts, subprocess
invocations, logging, the bail message, temporary-directory lifecycle) are
recorded as an event trace.  `textwrap.TextWrapper(width=75,
subsequent_indent="  ").fill` is kept as an opaque function parameter `fill`.
-/

namespace Rpmautospec

/-! ### Python string primitives used by the source, on `List Char` -/

/-- The characters stripped by Python's `str.strip()` with no argument. -/
def isPySpace (c : Char) : Bool :=
  c = ' ' || c = '\t' || c = '\n' || c = '\x0d' || c = '\x0b' || c = '\x0c'

/-- Python `s.strip()`: remove leading and trailing whitespace. -/
def pyStripL (xs : List Char) : List Char :=
  ((xs.dropWhile isPySpace).reverse.dropWhile isPySpace).reverse

/-- Python `s.split("\n")[0]`: everything before the first newline. -/
def firstLineL (xs : List Char) : List Char :=
  xs.takeWhile (fun c => c ≠ '\n')

/-- Python `s.rsplit(".", 1)[0]`: everything before the last `'.'`, or the
whole string when it has no `'.'`. -/
def rsplitDotHeadL (xs : List Char) : List Char :=
  if xs.reverse.contains '.' then
    ((xs.reverse.dropWhile (fun c => c ≠ '.')).drop 1).reverse
  else
    xs

/-- Python `s.split("  ")`: split on every non-overlapping occurrence of the
two-space separator, scanning left to right, keeping empty pieces. -/
def splitTwoSpace : List Char → List (List Char)
  | [] => [[]]
  | [c] => [[c]]
  | c :: d :: rest =>
    if c = ' ' ∧ d = ' ' then
      [] :: splitTwoSpace rest
    else
      match splitTwoSpace (d :: rest) with
      | [] => [[c]]
      | g :: gs => (c :: g) :: gs

/-- Python `s.strip("- ")`: remove leading and trailing `'-'` and `' '`. -/
def stripDashSpaceL (xs : List Char) : List Char :=
  let isDS : Char → Bool := fun c => c = '-' || c = ' '
  ((xs.dropWhile isDS).reverse.dropWhile isDS).reverse

/-- `output.decode("utf-8").strip().split("\n")[0].rsplit(".", 1)[0].split("  ")`
from line 82-84 of the source: the tuple of fields parsed from the metadata
query output. -/
def parseQueryOutput (out : String) : List String :=
  (splitTwoSpace (rsplitDotHeadL (firstLineL (pyStripL out.data)))).map String.mk

/-! ### Dates: `datetime.datetime.utcfromtimestamp(t).strftime('%a %b %d %Y')` -/

/-- Gregorian civil date (year, month, day) from a count of days since
1970-01-01 (Howard Hinnant's `civil_from_days`, with floor division). -/
def civilFromDays (z0 : Int) : Int × Nat × Nat :=
  let z := z0 + 719468
  let era := Int.fdiv z 146097
  let doe := z - era * 146097
  let yoe := Int.ediv (doe - Int.ediv doe 1460 + Int.ediv doe 36524 - Int.ediv doe 146096) 365
  let y := yoe + era * 400
  let doy := doe - (365 * yoe + Int.ediv yoe 4 - Int.ediv yoe 100)
  let mp := Int.ediv (5 * doy + 2) 153
  let d := doy - Int.ediv (153 * mp + 2) 5 + 1
  let m := if mp < 10 then mp + 3 else mp - 9
  (if m ≤ 2 then y + 1 else y, m.toNat, d.toNat)

def dayNames : List String := ["Sun", "Mon", "Tue", "Wed", "Thu", "Fri", "Sat"]

def monthNames : List String :=
  ["Jan", "Feb", "Mar", "Apr", "May", "Jun", "Jul", "Aug", "Sep", "Oct", "Nov", "Dec"]

def pad2 (n : Nat) : String := if n < 10 then "0" ++ toString n else toString n

/-- `datetime.datetime.utcfromtimestamp(t).strftime('%a %b %d %Y')` for an
integer epoch-second timestamp `t` (day 0 = Thursday 1970-01-01). -/
def formatDate (t : Int) : String :=
  let days := Int.fdiv t 86400
  let c := civilFromDays days
  dayNames.getD ((days + 4).emod 7).toNat "" ++ " " ++
    monthNames.getD (c.2.1 - 1) "" ++ " " ++ pad2 c.2.2 ++ " " ++ toString c.1

/-! ### Data model -/

/-- The observed behaviour of the `rpm` metadata-query subprocess for one
commit's checked-out tree: normal output, a `subprocess.CalledProcessError`
(non-zero exit with captured streams), or a failure of the invocation itself
(e.g. `FileNotFoundError` when the executable is absent), which Python raises
out of `subprocess.check_output` directly. -/
inductive QueryResult where
  | ok (stdout : String)
  | exitNonzero (code : Int) (stdout : String) (stderr : String)
  | invocationError
deriving DecidableEq, Repr

/-- One commit as observed through the opaque collaborators (see header
comment): pygit2 commit fields plus the per-commit observations of the
filesystem and of the subprocess. -/
structure Commit where
  parentCount : Nat
  commitTime : Int
  authorName : String
  authorEmail : String
  message : String
  specExists : Bool
  queryResult : QueryResult
  changedFiles : List String
deriving DecidableEq, Repr

/-- Observable effects of a run, in order. -/
inductive Event where
  | acquireTempDir
  | copytree
  | checkout (idx : Nat)
  | query (idx : Nat)
  | logCmdFail (cmd : String) (code : Int) (stdout : String) (stderr : String)
  | bail
  | releaseTempDir
deriving DecidableEq, Repr

/-- The whole-run input: `name = os.path.basename(repopath)`, the current
time, and the commit sequence yielded by
`repo_obj.walk(commit.hex, pygit2.GIT_SORT_TIME)` (newest first). -/
structure RunInput where
  name : String
  now : Int
  commits : List Commit
deriving Repr

/-- The command list built at lines 70-79 of the source. -/
def rpm_command (name : String) : List String :=
  ["rpm", "--qf", "%\x7bname\x7d  %\x7bversion\x7d  %\x7brelease\x7d\n",
   "--specfile", name ++ ".spec"]

/-- `run_command` (lines 28-41): on success return the output; on
`CalledProcessError` log command, return code, stdout and stderr (the three
consecutive `_log.error` calls, modelled as one structured event) and raise;
any other invocation failure raises without logging.  Both raises are
`Exception`s, modelled as `Except.error ()`. -/
def run_command (command : List String) (res : QueryResult) :
    Except Unit String × List Event :=
  match res with
  | QueryResult.ok out => (Except.ok out, [])
  | QueryResult.exitNonzero code out err =>
    (Except.error (),
     [Event.logCmdFail (String.intercalate " " command) code out err])
  | QueryResult.invocationError => (Except.error (), [])

/-- Insertion-ordered mapping from parsed output tuple to commit list, as a
`collections.defaultdict(list)` over tuple keys. -/
abbrev Groups := List (List String × List Commit)

/-- `data[output].append(commit)` on an insertion-ordered dict. -/
def insertGroup (k : List String) (c : Commit) : Groups → Groups
  | [] => [(k, [c])]
  | p :: rest => if p.1 = k then (p.1, p.2 ++ [c]) :: rest else p :: insertGroup k c rest

/-- Python `s.endswith(suffix)`. -/
def pyEndsWith (s suffix : String) : Bool :=
  suffix.data.isSuffixOf s.data

/-- The `ignore` flag loop of lines 95-98: starts `True`, set to `False` by
every changed filename ending in `.spec` or `.patch`
(`filename.endswith((".spec", ".patch"))`). -/
def ignoreFlag (files : List String) : Bool :=
  files.foldl
    (fun ign f => if pyEndsWith f ".spec" || pyEndsWith f ".patch" then false else ign)
    true

/-- The recency cutoff `datetime.datetime.utcnow() - datetime.timedelta(days=730)`. -/
def cutoff (now : Int) : Int := now - 730 * 86400

/-- The commit walk of lines 55-103, as a function of position index, the
remaining commits, and the accumulated groups and event trace.  Each list
position is one iteration of the `for` loop; `continue` recurses, `break`
returns.  The dead assignment `nvr = "-".join(output)` (line 85) cannot fail
and binds no observable state, so it has no counterpart here. -/
def walkFrom (name : String) (now : Int) :
    Nat → List Commit → Groups → List Event → Groups × List Event
  | _, [], data, tr => (data, tr)
  | i, c :: rest, data, tr =>
    if 1 < c.parentCount then
      -- Ignore merge commits
      walkFrom name now (i + 1) rest data tr
    else if c.commitTime < cutoff now then
      -- Ignore all commits older than 2 years
      (data, tr)
    else
      if c.specExists then
        match run_command (rpm_command name) c.queryResult with
        | (Except.error _, logs) =>
          walkFrom name now (i + 1) rest data
            (tr ++ [Event.checkout i, Event.query i] ++ logs)
        | (Except.ok out, _) =>
          let fields := parseQueryOutput out
          let data2 :=
            if c.changedFiles.length ≠ 0 then
              if ignoreFlag c.changedFiles = false then insertGroup fields c data
              else data
            else data
          walkFrom name now (i + 1) rest data2 (tr ++ [Event.checkout i, Event.query i])
      else
        -- "No more spec file, bailing"
        (data, tr ++ [Event.checkout i, Event.bail])

/-- Run the walk from the branch tip over the provider's commit sequence. -/
def walkResult (inp : RunInput) : Groups × List Event :=
  walkFrom inp.name inp.now 0 inp.commits [] []

/-- The groups collected by the walk. -/
def walkData (inp : RunInput) : Groups := (walkResult inp).1

/-! ### Renderer (lines 105-124) -/

/-- Python `nvr[i]` on a tuple: `IndexError` when out of range. -/
def pyGet (l : List String) (i : Nat) : Except String String :=
  match l.get? i with
  | some s => Except.ok s
  | none => Except.error "IndexError: tuple index out of range"

/-- The three lines emitted for one commit of a group: the header (with the
` - <version>-<release>` suffix exactly when `last_commit`), the wrapped
message line, and the trailing blank line. -/
def renderEntryLines (fill : String → String) (nvr : List String)
    (lastCommit : Bool) (c : Commit) : Except String (List String) :=
  let hdr := "* " ++ formatDate c.commitTime ++ " " ++ c.authorName ++
    " <" ++ c.authorEmail ++ ">"
  let msg := "- " ++ fill (String.mk (stripDashSpaceL (firstLineL c.message.data)))
  if lastCommit then do
    let v ← pyGet nvr 1
    let r ← pyGet nvr 2
    Except.ok [hdr ++ " - " ++ v ++ "-" ++ r, msg, ""]
  else
    Except.ok [hdr, msg, ""]

/-- The `for idx, commit in enumerate(reversed(commits))` loop body over an
already-reversed list, carrying `idx` and `len(commits)`. -/
def renderGo (fill : String → String) (nvr : List String) (total : Nat) :
    Nat → List Commit → Except String (List String)
  | _, [] => Except.ok []
  | idx, c :: rest => do
    let e ← renderEntryLines fill nvr (idx + 1 = total) c
    let r ← renderGo fill nvr total (idx + 1) rest
    Except.ok (e ++ r)

/-- Render one group: iterate `reversed(commits)` with
`last_commit = idx + 1 == len(commits)`. -/
def renderGroup (fill : String → String) (nvr : List String)
    (commits : List Commit) : Except String (List String) :=
  renderGo fill nvr commits.length 0 commits.reverse

/-- Render all groups in mapping iteration (insertion) order, accumulating
`lines`; an exception abandons the run. -/
def renderAll (fill : String → String) : Groups → Except String (List String)
  | [] => Except.ok []
  | p :: rest => do
    let a ← renderGroup fill p.1 p.2
    let b ← renderAll fill rest
    Except.ok (a ++ b)

/-- `produce_changelog` (lines 44-124): the temporary directory is acquired
and the repository copied before the walk; the `with` block closes (removing
the directory) before the render loop at line 105 runs, so the release event
is in the trace no matter how rendering turns out. -/
def produce_changelog (fill : String → String) (inp : RunInput) :
    Except String (List String) × List Event :=
  (renderAll fill (walkResult inp).1,
   Event.acquireTempDir :: Event.copytree :: (walkResult inp).2 ++ [Event.releaseTempDir])

/-! ### Filesystem frame model for the scoped workspace copy -/

/-- The filesystem as far as the run touches it: the caller's source
repository and the scratch copy living in the temporary directory (absent
before `copytree` and after the directory is removed).  `σ` is the abstract
state of one repository working tree. -/
structure FS (σ : Type) where
  source : σ
  temp : Option σ
deriving Repr

/-- Effect of one trace event on the filesystem: `copytree` materialises the
copy from the source, `checkout i` forces the copy's working tree to commit
`i`'s tree (`treeOf i`), removing the temporary directory drops the copy;
nothing ever writes to the source repository. -/
def applyEvent {σ : Type} (treeOf : Nat → σ) (fs : FS σ) : Event → FS σ
  | Event.copytree => { fs with temp := some fs.source }
  | Event.checkout i => { fs with temp := fs.temp.map fun _ => treeOf i }
  | Event.releaseTempDir => { fs with temp := none }
  | _ => fs

/-- Run a trace over the filesystem. -/
def applyTrace {σ : Type} (treeOf : Nat → σ) (fs : FS σ) (tr : List Event) : FS σ :=
  tr.foldl (applyEvent treeOf) fs

def isRelease : Event → Bool
  | Event.releaseTempDir => true
  | _ => false

def isAcquire : Event → Bool
  | Event.acquireTempDir => true
  | _ => false

def isCopytree : Event → Bool
  | Event.copytree => true
  | _ => false

/-- Events the walk itself can append to the trace. -/
def isWalkEvent : Event → Bool
  | Event.checkout _ => true
  | Event.query _ => true
  | Event.logCmdFail _ _ _ _ => true
  | Event.bail => true
  | _ => false

/-! ### Formalisations of the claims' own words (for refutation/refinement) -/

/-- Renderer following the claims' words: render the group oldest-to-newest
(i.e. over `commits.reverse`, walk order being newest-first) and put the
` - <version>-<release>` suffix on the entry at render position `j` only. -/
def renderGoAt (fill : String → String) (nvr : List String) (j : Nat) :
    Nat → List Commit → Except String (List String)
  | _, [] => Except.ok []
  | idx, c :: rest => do
    let e ← renderEntryLines fill nvr (idx = j) c
    let r ← renderGoAt fill nvr j (idx + 1) rest
    Except.ok (e ++ r)

/-- Render a group with the suffix at render position `j` (positions count
through `commits.reverse`). -/
def renderGroupAt (fill : String → String) (nvr : List String) (j : Nat)
    (commits : List Commit) : Except String (List String) :=
  renderGoAt fill nvr j 0 commits.reverse

/-- Index of the first commit with minimal `commitTime` in a list. -/
def idxOfMinTime (cs : List Commit) : Nat :=
  match cs.map Commit.commitTime with
  | [] => 0
  | t :: ts => (t :: ts).indexOf ((t :: ts).foldl min t)

/-- Claim C1 as stated: every collected group is rendered oldest-to-newest
with the version-release suffix on the header of the chronologically oldest
retained commit of the group. -/
def C1Claim (fill : String → String) (inp : RunInput) : Prop :=
  ∀ p ∈ walkData inp,
    renderGroup fill p.1 p.2 = renderGroupAt fill p.1 (idxOfMinTime p.2.reverse) p.2

/-- Claim C2's description of the parsed release: the release field with its
trailing `.`-delimited suffix stripped (nothing stripped when it has none). -/
def stripReleaseSuffix (s : String) : String := String.mk (rsplitDotHeadL s.data)

/-- A whitespace-free, non-empty field (so the line really consists of three
double-space-separated fields). -/
def goodFieldB (s : String) : Bool :=
  s ≠ "" && s.data.all fun c => !isPySpace c

/-- Claim C2 as stated: for every query output of the form
`name  version  release`, the parsed triple is the name and version unchanged
and the release with its trailing dotted suffix stripped. -/
def C2Claim : Prop :=
  ∀ n v r : String, goodFieldB n = true → goodFieldB v = true → goodFieldB r = true →
    parseQueryOutput (n ++ "  " ++ v ++ "  " ++ r ++ "\n") = [n, v, stripReleaseSuffix r]

/-- The commit's successful query output parsed to a tuple of the wrong
arity (not three double-space-separated fields). -/
def malformedB (c : Commit) : Bool :=
  match c.queryResult with
  | QueryResult.ok out => (parseQueryOutput out).length ≠ 3
  | _ => false

/-- The commit value appears in some collected group. -/
def memData (c : Commit) (g : Groups) : Prop := ∃ p ∈ g, c ∈ p.2

/-- Decidable membership used by the claim formalisations. -/
def memDataB (c : Commit) (g : Groups) : Bool := g.any fun p => p.2.contains c

/-- Claim C3 as stated: a commit whose query output has the wrong field count
fails alone — it is recorded nowhere, and the rest of the run, including
rendering of all other collected commits, completes normally. -/
def C3Claim (fill : String → String) (inp : RunInput) : Prop :=
  ∀ c ∈ inp.commits, malformedB c = true →
    memDataB c (walkData inp) = false ∧ (produce_changelog fill inp).1.isOk = true

/-- Claim C4 as stated: the walk stops at the first visited commit strictly
older than the cutoff, examining no earlier commits — the run is equivalent
to one over the sequence truncated just before that commit. -/
def C4Claim (inp : RunInput) : Prop :=
  ∀ i, inp.commits.findIdx? (fun c => decide (c.commitTime < cutoff inp.now)) = some i →
    walkResult inp = walkResult { inp with commits := inp.commits.take i }

/-! ### Concrete run inputs for counterexamples and witnesses -/

/-- A commit template: recent, single parent, spec file present, clean
three-field query output, touching the spec file. -/
def baseCommit : Commit where
  parentCount := 1
  commitTime := 1599000000
  authorName := "Jane Packager"
  authorEmail := "jane@example.com"
  message := "Update to 1.0\n\nDetails."
  specExists := true
  queryResult := QueryResult.ok "pkg  1.0  1.fc33\n"
  changedFiles := ["pkg.spec"]

/-- Two relevant commits (newest first) resolving to the same triple, with
distinct timestamps. -/
def ex1 : RunInput where
  name := "pkg"
  now := 1600000000
  commits :=
    [baseCommit,
     { baseCommit with commitTime := 1598000000, message := "Initial import" }]

/-- Two commits; the older one's query output is single-space separated, so
it parses to a 1-tuple. -/
def ex3 : RunInput where
  name := "pkg"
  now := 1600000000
  commits :=
    [baseCommit,
     { baseCommit with
        commitTime := 1598000000
        queryResult := QueryResult.ok "pkg 1.0 1.fc33\n"
        message := "Busted metadata" }]

/-- A run whose only commit is a merge commit touching the spec file. -/
def ex5 : RunInput where
  name := "pkg"
  now := 1600000000
  commits := [{ baseCommit with parentCount := 2, message := "Merge branch f32" }]

/-- A run whose first commit is a merge commit strictly older than the
cutoff, followed by a recent relevant commit. -/
def ex4 : RunInput where
  name := "pkg"
  now := 1600000000
  commits :=
    [{ baseCommit with
        parentCount := 2
        commitTime := 1500000000
        message := "Merge branch f31" },
     baseCommit]

/-- A recent relevant commit followed by a non-merge commit older than the
cutoff. -/
def ex4b : RunInput where
  name := "pkg"
  now := 1600000000
  commits := [baseCommit, { baseCommit with commitTime := 1500000000 }]

/-- A relevant recent commit, then a commit whose checkout has no spec file,
then an even older relevant commit that the walk must never reach. -/
def ex8 : RunInput where
  name := "pkg"
  now := 1600000000
  commits :=
    [baseCommit,
     { baseCommit with
        commitTime := 1598500000
        specExists := false
        message := "Before packaging" },
     { baseCommit with commitTime := 1598000000, message := "Ancient history" }]

deriving instance DecidableEq for Except

/-! ### Helper lemmas -/

theorem applyEvent_source {σ : Type} (treeOf : Nat → σ) (fs : FS σ) (e : Event) :
    (applyEvent treeOf fs e).source = fs.source := by
  cases e <;> rfl

theorem applyTrace_source {σ : Type} (treeOf : Nat → σ) (tr : List Event) (fs : FS σ) :
    (applyTrace treeOf fs tr).source = fs.source := by
  induction tr generalizing fs with
  | nil => rfl
  | cons e rest ih =>
    show (applyTrace treeOf (applyEvent treeOf fs e) rest).source = fs.source
    rw [ih, applyEvent_source]

/-- The walk only appends checkout, query, log and bail events to the trace. -/
theorem walk_trace_shape (name : String) (now : Int) (cs : List Commit) :
    ∀ (k : Nat) (data : Groups) (tr : List Event),
      ∃ ex, (walkFrom name now k cs data tr).2 = tr ++ ex ∧
        ∀ e ∈ ex, isWalkEvent e = true := by
  induction cs with
  | nil => exact fun k data tr => ⟨[], by simp [walkFrom]⟩
  | cons c rest ih =>
    intro k data tr
    by_cases hp : 1 < c.parentCount
    · simpa [walkFrom, hp] using ih (k + 1) data tr
    · by_cases ht : c.commitTime < cutoff now
      · exact ⟨[], by simp [walkFrom, hp, ht]⟩
      · by_cases hs : c.specExists
        · cases hq : c.queryResult with
          | ok out =>
            obtain ⟨ex, hex, hall⟩ :=
              ih (k + 1)
                (if c.changedFiles.length ≠ 0 then
                  if ignoreFlag c.changedFiles = false then
                    insertGroup (parseQueryOutput out) c data
                  else data
                 else data)
                (tr ++ [Event.checkout k, Event.query k])
            refine ⟨[Event.checkout k, Event.query k] ++ ex, ?_, ?_⟩
            · simp only [walkFrom, run_command, hq, hp, ht, hs, if_neg, if_pos,
                if_false, if_true, ite_true, ite_false]
              simpa [List.append_assoc] using hex
            · intro e he
              rcases List.mem_append.mp he with h | h
              · simp only [List.mem_cons, List.not_mem_nil, or_false] at h
                rcases h with rfl | rfl <;> rfl
              · exact hall e h
          | exitNonzero code out err =>
            obtain ⟨ex, hex, hall⟩ :=
              ih (k + 1) data
                (tr ++ [Event.checkout k, Event.query k] ++
                  [Event.logCmdFail (String.intercalate " " (rpm_command name)) code out err])
            refine ⟨[Event.checkout k, Event.query k,
              Event.logCmdFail (String.intercalate " " (rpm_command name)) code out err] ++ ex,
              ?_, ?_⟩
            · simp only [walkFrom, run_command, hq, hp, ht, hs, if_neg, if_pos,
                if_false, if_true, ite_true, ite_false]
              simpa [List.append_assoc] using hex
            · intro e he
              rcases List.mem_append.mp he with h | h
              · simp only [List.mem_cons, List.not_mem_nil, or_false] at h
                rcases h with rfl | rfl | rfl <;> rfl
              · exact hall e h
          | invocationError =>
            obtain ⟨ex, hex, hall⟩ :=
              ih (k + 1) data (tr ++ [Event.checkout k, Event.query k] ++ [])
            refine ⟨[Event.checkout k, Event.query k] ++ ex, ?_, ?_⟩
            · simp only [walkFrom, run_command, hq, hp, ht, hs, if_neg, if_pos,
                if_false, if_true, ite_true, ite_false]
              simpa [List.append_assoc] using hex
            · intro e he
              rcases List.mem_append.mp he with h | h
              · simp only [List.mem_cons, List.not_mem_nil, or_false] at h
                rcases h with rfl | rfl <;> rfl
              · exact hall e h
        · exact ⟨[Event.checkout k, Event.bail], by simp [walkFrom, hp, ht, hs, isWalkEvent]⟩

theorem memData_insertGroup_mono (k : List String) (c x : Commit) (g : Groups)
    (h : memData x g) : memData x (insertGroup k c g) := by
  induction g with
  | nil => rcases h with ⟨p, hp, _⟩; cases hp
  | cons q rest ih =>
    rcases h with ⟨p, hp, hx⟩
    rcases List.mem_cons.mp hp with hp | hp
    · rw [hp] at hx
      by_cases hk : q.1 = k
      · exact ⟨(q.1, q.2 ++ [c]), by simp [insertGroup, hk], by simp [hx]⟩
      · exact ⟨q, by simp [insertGroup, hk], hx⟩
    · by_cases hk : q.1 = k
      · exact ⟨p, by simp [insertGroup, hk, hp], hx⟩
      · rcases ih ⟨p, hp, hx⟩ with ⟨p', hp', hx'⟩
        exact ⟨p', by simp [insertGroup, hk, hp'], hx'⟩

theorem memData_insertGroup_self (k : List String) (c : Commit) (g : Groups) :
    memData c (insertGroup k c g) := by
  induction g with
  | nil => exact ⟨(k, [c]), by simp [insertGroup], by simp⟩
  | cons q rest ih =>
    by_cases hk : q.1 = k
    · exact ⟨(q.1, q.2 ++ [c]), by simp [insertGroup, hk], by simp⟩
    · rcases ih with ⟨p', hp', hx'⟩
      exact ⟨p', by simp [insertGroup, hk, hp'], hx'⟩

theorem mem_insertGroup_elim (k : List String) (c x : Commit) (g : Groups)
    (h : memData x (insertGroup k c g)) : memData x g ∨ x = c := by
  induction g with
  | nil =>
    rcases h with ⟨p, hp, hx⟩
    simp only [insertGroup, List.mem_singleton] at hp
    subst hp
    simp only [List.mem_singleton] at hx
    exact Or.inr hx
  | cons q rest ih =>
    rcases h with ⟨p, hp, hx⟩
    by_cases hk : q.1 = k
    · rw [show insertGroup k c (q :: rest) = (q.1, q.2 ++ [c]) :: rest by
        simp [insertGroup, hk]] at hp
      rcases List.mem_cons.mp hp with hp | hp
      · rw [hp] at hx
        simp only [List.mem_append, List.mem_singleton] at hx
        rcases hx with hx | hx
        · exact Or.inl ⟨q, by simp, hx⟩
        · exact Or.inr hx
      · exact Or.inl ⟨p, by simp [hp], hx⟩
    · rw [show insertGroup k c (q :: rest) = q :: insertGroup k c rest by
        simp [insertGroup, hk]] at hp
      rcases List.mem_cons.mp hp with hp | hp
      · exact Or.inl ⟨q, by simp, hp ▸ hx⟩
      · rcases ih ⟨p, hp, hx⟩ with h | h
        · rcases h with ⟨p', hp', hx'⟩
          exact Or.inl ⟨p', by simp [hp'], hx'⟩
        · exact Or.inr h

/-- Every commit value in the collected groups either was there initially or
is a commit of the walked list that reached the recording point: non-merge,
inside the recency window, spec file present, query successful, non-empty
diff, and `ignore` cleared by a `.spec`/`.patch` path. -/
theorem walk_data_members (name : String) (now : Int) (cs : List Commit) :
    ∀ (k : Nat) (data : Groups) (tr : List Event) (x : Commit),
      memData x (walkFrom name now k cs data tr).1 →
      memData x data ∨
        (x ∈ cs ∧ x.parentCount ≤ 1 ∧ ¬ x.commitTime < cutoff now ∧
          x.specExists = true ∧ (∃ out, x.queryResult = QueryResult.ok out) ∧
          x.changedFiles.length ≠ 0 ∧ ignoreFlag x.changedFiles = false) := by
  induction cs with
  | nil => exact fun k data tr x h => Or.inl (by simpa [walkFrom] using h)
  | cons c rest ih =>
    intro k data tr x h
    by_cases hp : 1 < c.parentCount
    · rw [show walkFrom name now k (c :: rest) data tr
          = walkFrom name now (k + 1) rest data tr by simp [walkFrom, hp]] at h
      rcases ih (k + 1) data tr x h with h | h
      · exact Or.inl h
      · exact Or.inr ⟨List.mem_cons_of_mem c h.1, h.2⟩
    · by_cases ht : c.commitTime < cutoff now
      · exact Or.inl (by simpa [walkFrom, hp, ht] using h)
      · by_cases hs : c.specExists
        · cases hq : c.queryResult with
          | ok out =>
            rw [show walkFrom name now k (c :: rest) data tr
                = walkFrom name now (k + 1) rest
                    (if c.changedFiles.length ≠ 0 then
                      if ignoreFlag c.changedFiles = false then
                        insertGroup (parseQueryOutput out) c data
                      else data
                     else data)
                    (tr ++ [Event.checkout k, Event.query k]) by
              simp [walkFrom, run_command, hp, ht, hs, hq]] at h
            rcases ih (k + 1) _ _ x h with h | h
            · by_cases hlen : c.changedFiles.length ≠ 0
              · by_cases hign : ignoreFlag c.changedFiles = false
                · rw [if_pos hlen, if_pos hign] at h
                  rcases mem_insertGroup_elim _ c x data h with h | h
                  · exact Or.inl h
                  · subst h
                    exact Or.inr ⟨by simp, by omega, ht, hs, ⟨out, hq⟩, hlen, hign⟩
                · rw [if_pos hlen, if_neg hign] at h; exact Or.inl h
              · rw [if_neg hlen] at h; exact Or.inl h
            · exact Or.inr ⟨List.mem_cons_of_mem c h.1, h.2⟩
          | exitNonzero code out err =>
            rw [show walkFrom name now k (c :: rest) data tr
                = walkFrom name now (k + 1) rest data
                    (tr ++ [Event.checkout k, Event.query k] ++
                      [Event.logCmdFail (String.intercalate " " (rpm_command name))
                        code out err]) by
              simp [walkFrom, run_command, hp, ht, hs, hq]] at h
            rcases ih (k + 1) data _ x h with h | h
            · exact Or.inl h
            · exact Or.inr ⟨List.mem_cons_of_mem c h.1, h.2⟩
          | invocationError =>
            rw [show walkFrom name now k (c :: rest) data tr
                = walkFrom name now (k + 1) rest data
                    (tr ++ [Event.checkout k, Event.query k] ++ []) by
              simp [walkFrom, run_command, hp, ht, hs, hq]] at h
            rcases ih (k + 1) data _ x h with h | h
            · exact Or.inl h
            · exact Or.inr ⟨List.mem_cons_of_mem c h.1, h.2⟩
        · exact Or.inl (by simpa [walkFrom, hp, ht, hs] using h)

/-- A checkout or query event of the walk names a list position holding a
non-merge commit. -/
theorem walk_event_positions (name : String) (now : Int) (cs : List Commit) :
    ∀ (k : Nat) (data : Groups) (tr : List Event) (j : Nat),
      (Event.checkout j ∈ (walkFrom name now k cs data tr).2 ∨
        Event.query j ∈ (walkFrom name now k cs data tr).2) →
      (Event.checkout j ∈ tr ∨ Event.query j ∈ tr) ∨
        ∃ hj : j - k < cs.length, k ≤ j ∧ (cs.get ⟨j - k, hj⟩).parentCount ≤ 1 := by
  induction cs with
  | nil => exact fun k data tr j h => Or.inl (by simpa [walkFrom] using h)
  | cons c rest ih =>
    intro k data tr j h
    have shift : ∀ (m : Nat) (hm1 : m - (k + 1) < rest.length), k + 1 ≤ m →
        ∃ hj : m - k < (c :: rest).length,
          ((c :: rest).get ⟨m - k, hj⟩) = rest.get ⟨m - (k + 1), hm1⟩ := by
      intro m hm1 hk1
      have h1 : m - k = (m - (k + 1)) + 1 := by omega
      refine ⟨by simp only [List.length_cons]; omega, ?_⟩
      simp [h1]
    by_cases hp : 1 < c.parentCount
    · rw [show walkFrom name now k (c :: rest) data tr
          = walkFrom name now (k + 1) rest data tr by simp [walkFrom, hp]] at h
      rcases ih (k + 1) data tr j h with h | ⟨hj, hk, hle⟩
      · exact Or.inl h
      · rcases shift j hj hk with ⟨hj', hget⟩
        exact Or.inr ⟨hj', by omega, by rw [hget]; exact hle⟩
    · by_cases ht : c.commitTime < cutoff now
      · exact Or.inl (by simpa [walkFrom, hp, ht] using h)
      · have hself : ∀ e, e ∈ (tr ++ [Event.checkout k, Event.query k]) →
            e = Event.checkout j ∨ e = Event.query j →
            (Event.checkout j ∈ tr ∨ Event.query j ∈ tr) ∨
              ∃ hj : j - k < (c :: rest).length, k ≤ j ∧
                ((c :: rest).get ⟨j - k, hj⟩).parentCount ≤ 1 := by
          intro e he hor
          rcases List.mem_append.mp he with he | he
          · rcases hor with rfl | rfl
            · exact Or.inl (Or.inl he)
            · exact Or.inl (Or.inr he)
          · have hjk : j = k := by rcases hor with rfl | rfl <;> simpa using he
            subst hjk
            exact Or.inr ⟨by simp, le_refl j,
              by simp only [Nat.sub_self]; show c.parentCount ≤ 1; omega⟩
        by_cases hs : c.specExists
        · cases hq : c.queryResult with
          | ok out =>
            rw [show walkFrom name now k (c :: rest) data tr
                = walkFrom name now (k + 1) rest
                    (if c.changedFiles.length ≠ 0 then
                      if ignoreFlag c.changedFiles = false then
                        insertGroup (parseQueryOutput out) c data
                      else data
                     else data)
                    (tr ++ [Event.checkout k, Event.query k]) by
              simp [walkFrom, run_command, hp, ht, hs, hq]] at h
            rcases ih (k + 1) _ _ j h with h | ⟨hj, hk, hle⟩
            · rcases h with h | h
              · exact hself _ h (Or.inl rfl)
              · exact hself _ h (Or.inr rfl)
            · rcases shift j hj hk with ⟨hj', hget⟩
              exact Or.inr ⟨hj', by omega, by rw [hget]; exact hle⟩
          | exitNonzero code out err =>
            rw [show walkFrom name now k (c :: rest) data tr
                = walkFrom name now (k + 1) rest data
                    (tr ++ [Event.checkout k, Event.query k] ++
                      [Event.logCmdFail (String.intercalate " " (rpm_command name))
                        code out err]) by
              simp [walkFrom, run_command, hp, ht, hs, hq]] at h
            rcases ih (k + 1) data _ j h with h | ⟨hj, hk, hle⟩
            · rcases h with h | h <;>
                rcases List.mem_append.mp h with h' | h'
              · exact hself _ h' (Or.inl rfl)
              · exact absurd h' (by simp)
              · exact hself _ h' (Or.inr rfl)
              · exact absurd h' (by simp)
            · rcases shift j hj hk with ⟨hj', hget⟩
              exact Or.inr ⟨hj', by omega, by rw [hget]; exact hle⟩
          | invocationError =>
            rw [show walkFrom name now k (c :: rest) data tr
                = walkFrom name now (k + 1) rest data
                    (tr ++ [Event.checkout k, Event.query k] ++ []) by
              simp [walkFrom, run_command, hp, ht, hs, hq]] at h
            rcases ih (k + 1) data _ j h with h | ⟨hj, hk, hle⟩
            · rcases h with h | h <;> rw [List.append_nil] at h
              · exact hself _ h (Or.inl rfl)
              · exact hself _ h (Or.inr rfl)
            · rcases shift j hj hk with ⟨hj', hget⟩
              exact Or.inr ⟨hj', by omega, by rw [hget]; exact hle⟩
        · rw [show (walkFrom name now k (c :: rest) data tr).2
              = tr ++ [Event.checkout k, Event.bail] by simp [walkFrom, hp, ht, hs]] at h
          rcases h with h | h <;> rcases List.mem_append.mp h with h' | h'
          · exact Or.inl (Or.inl h')
          · have hjk : j = k := by simpa using h'
            subst hjk
            exact Or.inr ⟨by simp, le_refl j,
              by simp only [Nat.sub_self]; show c.parentCount ≤ 1; omega⟩
          · exact Or.inl (Or.inr h')
          · exact absurd h' (by simp)

/-- Group membership only grows along the walk. -/
theorem walk_data_mono (name : String) (now : Int) (cs : List Commit) :
    ∀ (k : Nat) (data : Groups) (tr : List Event) (x : Commit),
      memData x data → memData x (walkFrom name now k cs data tr).1 := by
  induction cs with
  | nil => exact fun k data tr x h => by simpa [walkFrom] using h
  | cons c rest ih =>
    intro k data tr x h
    by_cases hp : 1 < c.parentCount
    · rw [show walkFrom name now k (c :: rest) data tr
          = walkFrom name now (k + 1) rest data tr by simp [walkFrom, hp]]
      exact ih (k + 1) data tr x h
    · by_cases ht : c.commitTime < cutoff now
      · simpa [walkFrom, hp, ht] using h
      · by_cases hs : c.specExists
        · cases hq : c.queryResult with
          | ok out =>
            rw [show walkFrom name now k (c :: rest) data tr
                = walkFrom name now (k + 1) rest
                    (if c.changedFiles.length ≠ 0 then
                      if ignoreFlag c.changedFiles = false then
                        insertGroup (parseQueryOutput out) c data
                      else data
                     else data)
                    (tr ++ [Event.checkout k, Event.query k]) by
              simp [walkFrom, run_command, hp, ht, hs, hq]]
            apply ih
            by_cases hlen : c.changedFiles.length ≠ 0
            · by_cases hign : ignoreFlag c.changedFiles = false
              · rw [if_pos hlen, if_pos hign]
                exact memData_insertGroup_mono _ c x data h
              · rwa [if_pos hlen, if_neg hign]
            · rwa [if_neg hlen]
          | exitNonzero code out err =>
            rw [show walkFrom name now k (c :: rest) data tr
                = walkFrom name now (k + 1) rest data
                    (tr ++ [Event.checkout k, Event.query k] ++
                      [Event.logCmdFail (String.intercalate " " (rpm_command name))
                        code out err]) by
              simp [walkFrom, run_command, hp, ht, hs, hq]]
            exact ih (k + 1) data _ x h
          | invocationError =>
            rw [show walkFrom name now k (c :: rest) data tr
                = walkFrom name now (k + 1) rest data
                    (tr ++ [Event.checkout k, Event.query k] ++ []) by
              simp [walkFrom, run_command, hp, ht, hs, hq]]
            exact ih (k + 1) data _ x h
        · simpa [walkFrom, hp, ht, hs] using h

/-- The `ignore` loop clears the flag exactly when some changed path ends in
`.spec` or `.patch`. -/
theorem ignoreFlag_eq_false_iff (files : List String) :
    ignoreFlag files = false ↔
      ∃ f ∈ files, (pyEndsWith f ".spec" || pyEndsWith f ".patch") = true := by
  have key : ∀ (l : List String) (ign : Bool),
      l.foldl
        (fun ign f => if pyEndsWith f ".spec" || pyEndsWith f ".patch" then false else ign)
        ign
      = (ign && !(l.any fun f => pyEndsWith f ".spec" || pyEndsWith f ".patch")) := by
    intro l
    induction l with
    | nil => simp
    | cons f fs ih =>
      intro ign
      rw [List.foldl_cons, ih, List.any_cons]
      by_cases hf : (pyEndsWith f ".spec" || pyEndsWith f ".patch") = true
      · rw [if_pos hf, hf]
        simp
      · simp only [Bool.not_eq_true] at hf
        rw [if_neg (by simp [hf]), hf]
        simp
  rw [ignoreFlag, key]
  simp [List.any_eq_true]

/-- If commit `i` of the walked list reaches the recording point (every
earlier commit is a merge or is inside the window with its spec file present;
commit `i` itself is a non-merge, in-window commit whose spec file exists,
whose query succeeds, and whose diff is non-empty with `ignore` cleared),
then commit `i` is recorded in the collected groups. -/
theorem walk_records (name : String) (now : Int) (cs : List Commit) :
    ∀ (i : Nat) (hi : i < cs.length) (k : Nat) (data : Groups) (tr : List Event),
      (∀ j (hj : j < i), 1 < (cs.get ⟨j, Nat.lt_trans hj hi⟩).parentCount ∨
        (¬ (cs.get ⟨j, Nat.lt_trans hj hi⟩).commitTime < cutoff now ∧
          (cs.get ⟨j, Nat.lt_trans hj hi⟩).specExists = true)) →
      (cs.get ⟨i, hi⟩).parentCount ≤ 1 →
      ¬ (cs.get ⟨i, hi⟩).commitTime < cutoff now →
      (cs.get ⟨i, hi⟩).specExists = true →
      (∃ out, (cs.get ⟨i, hi⟩).queryResult = QueryResult.ok out) →
      (cs.get ⟨i, hi⟩).changedFiles.length ≠ 0 →
      ignoreFlag (cs.get ⟨i, hi⟩).changedFiles = false →
      memData (cs.get ⟨i, hi⟩) (walkFrom name now k cs data tr).1 := by
  induction cs with
  | nil => intro i hi; exact absurd hi (by simp)
  | cons c rest ih =>
    intro i hi k data tr hreach hpar htime hspec hok hlen hign
    cases i with
    | zero =>
      have hpar0 : c.parentCount ≤ 1 := hpar
      have htime0 : ¬ c.commitTime < cutoff now := htime
      have hspec0 : c.specExists = true := hspec
      have hok0 : ∃ out, c.queryResult = QueryResult.ok out := hok
      have hlen0 : c.changedFiles.length ≠ 0 := hlen
      have hign0 : ignoreFlag c.changedFiles = false := hign
      have hp : ¬ 1 < c.parentCount := by omega
      rcases hok0 with ⟨out, hq⟩
      rw [show walkFrom name now k (c :: rest) data tr
          = walkFrom name now (k + 1) rest
              (insertGroup (parseQueryOutput out) c data)
              (tr ++ [Event.checkout k, Event.query k]) by
        simp [walkFrom, run_command, hp, htime0, hspec0, hq, hlen0, hign0]]
      exact walk_data_mono name now rest (k + 1) _ _ c
        (memData_insertGroup_self _ c data)
    | succ n =>
      have hn : n < rest.length := by
        have h2 := hi
        simp only [List.length_cons] at h2
        omega
      have hget : (c :: rest).get ⟨n + 1, hi⟩ = rest.get ⟨n, hn⟩ := rfl
      rw [hget] at hpar htime hspec hok hlen hign
      have hreach' : ∀ j (hj : j < n), 1 < (rest.get ⟨j, Nat.lt_trans hj hn⟩).parentCount ∨
          (¬ (rest.get ⟨j, Nat.lt_trans hj hn⟩).commitTime < cutoff now ∧
            (rest.get ⟨j, Nat.lt_trans hj hn⟩).specExists = true) := by
        intro j hj
        have := hreach (j + 1) (by omega)
        simpa using this
      have hc0 := hreach 0 (by omega)
      rcases hc0 with hc0 | hc0s
      · have hc0' : 1 < c.parentCount := hc0
        rw [show walkFrom name now k (c :: rest) data tr
            = walkFrom name now (k + 1) rest data tr by simp [walkFrom, hc0']]
        exact ih n hn (k + 1) data tr hreach' hpar htime hspec hok hlen hign
      · have hct : ¬ c.commitTime < cutoff now := hc0s.1
        have hcs : c.specExists = true := hc0s.2
        by_cases hp : 1 < c.parentCount
        · rw [show walkFrom name now k (c :: rest) data tr
              = walkFrom name now (k + 1) rest data tr by simp [walkFrom, hp]]
          exact ih n hn (k + 1) data tr hreach' hpar htime hspec hok hlen hign
        · cases hq : c.queryResult with
          | ok out =>
            rw [show walkFrom name now k (c :: rest) data tr
                = walkFrom name now (k + 1) rest
                    (if c.changedFiles.length ≠ 0 then
                      if ignoreFlag c.changedFiles = false then
                        insertGroup (parseQueryOutput out) c data
                      else data
                     else data)
                    (tr ++ [Event.checkout k, Event.query k]) by
              simp [walkFrom, run_command, hp, hct, hcs, hq]]
            exact ih n hn (k + 1) _ _ hreach' hpar htime hspec hok hlen hign
          | exitNonzero code out err =>
            rw [show walkFrom name now k (c :: rest) data tr
                = walkFrom name now (k + 1) rest data
                    (tr ++ [Event.checkout k, Event.query k] ++
                      [Event.logCmdFail (String.intercalate " " (rpm_command name))
                        code out err]) by
              simp [walkFrom, run_command, hp, hct, hcs, hq]]
            exact ih n hn (k + 1) data _ hreach' hpar htime hspec hok hlen hign
          | invocationError =>
            rw [show walkFrom name now k (c :: rest) data tr
                = walkFrom name now (k + 1) rest data
                    (tr ++ [Event.checkout k, Event.query k] ++ []) by
              simp [walkFrom, run_command, hp, hct, hcs, hq]]
            exact ih n hn (k + 1) data _ hreach' hpar htime hspec hok hlen hign

/-- If every commit before position `i` is a merge or is in-window with its
spec file present, and commit `i` is a non-merge commit strictly older than
the cutoff, then the walk is equal — groups and trace — to the walk of the
list truncated before position `i` (the `break` at line 63 adds nothing). -/
theorem walk_take_cutoff (name : String) (now : Int) (cs : List Commit) :
    ∀ (i : Nat) (hi : i < cs.length) (k : Nat) (data : Groups) (tr : List Event),
      (∀ j (hj : j < i), 1 < (cs.get ⟨j, Nat.lt_trans hj hi⟩).parentCount ∨
        (¬ (cs.get ⟨j, Nat.lt_trans hj hi⟩).commitTime < cutoff now ∧
          (cs.get ⟨j, Nat.lt_trans hj hi⟩).specExists = true)) →
      (cs.get ⟨i, hi⟩).parentCount ≤ 1 →
      (cs.get ⟨i, hi⟩).commitTime < cutoff now →
      walkFrom name now k cs data tr = walkFrom name now k (cs.take i) data tr := by
  induction cs with
  | nil => intro i hi; exact absurd hi (by simp)
  | cons c rest ih =>
    intro i hi k data tr hreach hpar htime
    cases i with
    | zero =>
      have hpar0 : c.parentCount ≤ 1 := hpar
      have htime0 : c.commitTime < cutoff now := htime
      have hp : ¬ 1 < c.parentCount := by omega
      simp [walkFrom, hp, htime0]
    | succ n =>
      have hn : n < rest.length := by
        have h2 := hi
        simp only [List.length_cons] at h2
        omega
      have hget : (c :: rest).get ⟨n + 1, hi⟩ = rest.get ⟨n, hn⟩ := rfl
      rw [hget] at hpar htime
      have hreach' : ∀ j (hj : j < n), 1 < (rest.get ⟨j, Nat.lt_trans hj hn⟩).parentCount ∨
          (¬ (rest.get ⟨j, Nat.lt_trans hj hn⟩).commitTime < cutoff now ∧
            (rest.get ⟨j, Nat.lt_trans hj hn⟩).specExists = true) := by
        intro j hj
        have := hreach (j + 1) (by omega)
        simpa using this
      have htake : (c :: rest).take (n + 1) = c :: rest.take n := rfl
      rw [htake]
      have hc0 := hreach 0 (by omega)
      rcases hc0 with hc0 | hc0s
      · have hc0' : 1 < c.parentCount := hc0
        rw [show walkFrom name now k (c :: rest) data tr
            = walkFrom name now (k + 1) rest data tr by simp [walkFrom, hc0']]
        rw [show walkFrom name now k (c :: rest.take n) data tr
            = walkFrom name now (k + 1) (rest.take n) data tr by simp [walkFrom, hc0']]
        exact ih n hn (k + 1) data tr hreach' hpar htime
      · have hct : ¬ c.commitTime < cutoff now := hc0s.1
        have hcs : c.specExists = true := hc0s.2
        by_cases hp : 1 < c.parentCount
        · rw [show walkFrom name now k (c :: rest) data tr
              = walkFrom name now (k + 1) rest data tr by simp [walkFrom, hp]]
          rw [show walkFrom name now k (c :: rest.take n) data tr
              = walkFrom name now (k + 1) (rest.take n) data tr by simp [walkFrom, hp]]
          exact ih n hn (k + 1) data tr hreach' hpar htime
        · cases hq : c.queryResult with
          | ok out =>
            rw [show walkFrom name now k (c :: rest) data tr
                = walkFrom name now (k + 1) rest
                    (if c.changedFiles.length ≠ 0 then
                      if ignoreFlag c.changedFiles = false then
                        insertGroup (parseQueryOutput out) c data
                      else data
                     else data)
                    (tr ++ [Event.checkout k, Event.query k]) by
              simp [walkFrom, run_command, hp, hct, hcs, hq]]
            rw [show walkFrom name now k (c :: rest.take n) data tr
                = walkFrom name now (k + 1) (rest.take n)
                    (if c.changedFiles.length ≠ 0 then
                      if ignoreFlag c.changedFiles = false then
                        insertGroup (parseQueryOutput out) c data
                      else data
                     else data)
                    (tr ++ [Event.checkout k, Event.query k]) by
              simp [walkFrom, run_command, hp, hct, hcs, hq]]
            exact ih n hn (k + 1) _ _ hreach' hpar htime
          | exitNonzero code out err =>
            rw [show walkFrom name now k (c :: rest) data tr
                = walkFrom name now (k + 1) rest data
                    (tr ++ [Event.checkout k, Event.query k] ++
                      [Event.logCmdFail (String.intercalate " " (rpm_command name))
                        code out err]) by
              simp [walkFrom, run_command, hp, hct, hcs, hq]]
            rw [show walkFrom name now k (c :: rest.take n) data tr
                = walkFrom name now (k + 1) (rest.take n) data
                    (tr ++ [Event.checkout k, Event.query k] ++
                      [Event.logCmdFail (String.intercalate " " (rpm_command name))
                        code out err]) by
              simp [walkFrom, run_command, hp, hct, hcs, hq]]
            exact ih n hn (k + 1) data _ hreach' hpar htime
          | invocationError =>
            rw [show walkFrom name now k (c :: rest) data tr
                = walkFrom name now (k + 1) rest data
                    (tr ++ [Event.checkout k, Event.query k] ++ []) by
              simp [walkFrom, run_command, hp, hct, hcs, hq]]
            rw [show walkFrom name now k (c :: rest.take n) data tr
                = walkFrom name now (k + 1) (rest.take n) data
                    (tr ++ [Event.checkout k, Event.query k] ++ []) by
              simp [walkFrom, run_command, hp, hct, hcs, hq]]
            exact ih n hn (k + 1) data _ hreach' hpar htime

/-- Same truncation for the bail exit (missing spec file): the `break` at
line 103 leaves the collected groups exactly as after the truncated walk
(the traces differ by the final checkout/bail events). -/
theorem walk_take_bail (name : String) (now : Int) (cs : List Commit) :
    ∀ (i : Nat) (hi : i < cs.length) (k : Nat) (data : Groups) (tr : List Event),
      (∀ j (hj : j < i), 1 < (cs.get ⟨j, Nat.lt_trans hj hi⟩).parentCount ∨
        (¬ (cs.get ⟨j, Nat.lt_trans hj hi⟩).commitTime < cutoff now ∧
          (cs.get ⟨j, Nat.lt_trans hj hi⟩).specExists = true)) →
      (cs.get ⟨i, hi⟩).parentCount ≤ 1 →
      ¬ (cs.get ⟨i, hi⟩).commitTime < cutoff now →
      (cs.get ⟨i, hi⟩).specExists = false →
      (walkFrom name now k cs data tr).1 = (walkFrom name now k (cs.take i) data tr).1 := by
  induction cs with
  | nil => intro i hi; exact absurd hi (by simp)
  | cons c rest ih =>
    intro i hi k data tr hreach hpar htime hspec
    cases i with
    | zero =>
      have hpar0 : c.parentCount ≤ 1 := hpar
      have htime0 : ¬ c.commitTime < cutoff now := htime
      have hspec0 : c.specExists = false := hspec
      have hp : ¬ 1 < c.parentCount := by omega
      simp [walkFrom, hp, htime0, hspec0]
    | succ n =>
      have hn : n < rest.length := by
        have h2 := hi
        simp only [List.length_cons] at h2
        omega
      have hget : (c :: rest).get ⟨n + 1, hi⟩ = rest.get ⟨n, hn⟩ := rfl
      rw [hget] at hpar htime hspec
      have hreach' : ∀ j (hj : j < n), 1 < (rest.get ⟨j, Nat.lt_trans hj hn⟩).parentCount ∨
          (¬ (rest.get ⟨j, Nat.lt_trans hj hn⟩).commitTime < cutoff now ∧
            (rest.get ⟨j, Nat.lt_trans hj hn⟩).specExists = true) := by
        intro j hj
        have := hreach (j + 1) (by omega)
        simpa using this
      have htake : (c :: rest).take (n + 1) = c :: rest.take n := rfl
      rw [htake]
      have hc0 := hreach 0 (by omega)
      rcases hc0 with hc0 | hc0s
      · have hc0' : 1 < c.parentCount := hc0
        rw [show walkFrom name now k (c :: rest) data tr
            = walkFrom name now (k + 1) rest data tr by simp [walkFrom, hc0']]
        rw [show walkFrom name now k (c :: rest.take n) data tr
            = walkFrom name now (k + 1) (rest.take n) data tr by simp [walkFrom, hc0']]
        exact ih n hn (k + 1) data tr hreach' hpar htime hspec
      · have hct : ¬ c.commitTime < cutoff now := hc0s.1
        have hcs : c.specExists = true := hc0s.2
        by_cases hp : 1 < c.parentCount
        · rw [show walkFrom name now k (c :: rest) data tr
              = walkFrom name now (k + 1) rest data tr by simp [walkFrom, hp]]
          rw [show walkFrom name now k (c :: rest.take n) data tr
              = walkFrom name now (k + 1) (rest.take n) data tr by simp [walkFrom, hp]]
          exact ih n hn (k + 1) data tr hreach' hpar htime hspec
        · cases hq : c.queryResult with
          | ok out =>
            rw [show walkFrom name now k (c :: rest) data tr
                = walkFrom name now (k + 1) rest
                    (if c.changedFiles.length ≠ 0 then
                      if ignoreFlag c.changedFiles = false then
                        insertGroup (parseQueryOutput out) c data
                      else data
                     else data)
                    (tr ++ [Event.checkout k, Event.query k]) by
              simp [walkFrom, run_command, hp, hct, hcs, hq]]
            rw [show walkFrom name now k (c :: rest.take n) data tr
                = walkFrom name now (k + 1) (rest.take n)
                    (if c.changedFiles.length ≠ 0 then
                      if ignoreFlag c.changedFiles = false then
                        insertGroup (parseQueryOutput out) c data
                      else data
                     else data)
                    (tr ++ [Event.checkout k, Event.query k]) by
              simp [walkFrom, run_command, hp, hct, hcs, hq]]
            exact ih n hn (k + 1) _ _ hreach' hpar htime hspec
          | exitNonzero code out err =>
            rw [show walkFrom name now k (c :: rest) data tr
                = walkFrom name now (k + 1) rest data
                    (tr ++ [Event.checkout k, Event.query k] ++
                      [Event.logCmdFail (String.intercalate " " (rpm_command name))
                        code out err]) by
              simp [walkFrom, run_command, hp, hct, hcs, hq]]
            rw [show walkFrom name now k (c :: rest.take n) data tr
                = walkFrom name now (k + 1) (rest.take n) data
                    (tr ++ [Event.checkout k, Event.query k] ++
                      [Event.logCmdFail (String.intercalate " " (rpm_command name))
                        code out err]) by
              simp [walkFrom, run_command, hp, hct, hcs, hq]]
            exact ih n hn (k + 1) data _ hreach' hpar htime hspec
          | invocationError =>
            rw [show walkFrom name now k (c :: rest) data tr
                = walkFrom name now (k + 1) rest data
                    (tr ++ [Event.checkout k, Event.query k] ++ []) by
              simp [walkFrom, run_command, hp, hct, hcs, hq]]
            rw [show walkFrom name now k (c :: rest.take n) data tr
                = walkFrom name now (k + 1) (rest.take n) data
                    (tr ++ [Event.checkout k, Event.query k] ++ []) by
              simp [walkFrom, run_command, hp, hct, hcs, hq]]
            exact ih n hn (k + 1) data _ hreach' hpar htime hspec

/-- Structure of `insertGroup`: each resulting pair is an untouched old pair,
the matching pair with the commit appended, or the fresh singleton group. -/
theorem mem_insertGroup_cases (k : List String) (c : Commit) (data : Groups) :
    ∀ p ∈ insertGroup k c data,
      p ∈ data ∨ (∃ q, q ∈ data ∧ q.1 = k ∧ p = (q.1, q.2 ++ [c])) ∨ p = (k, [c]) := by
  induction data with
  | nil =>
    intro p hp
    simp only [insertGroup, List.mem_singleton] at hp
    exact Or.inr (Or.inr hp)
  | cons q rest ih =>
    intro p hp
    by_cases hk : q.1 = k
    · rw [show insertGroup k c (q :: rest) = (q.1, q.2 ++ [c]) :: rest by
        simp [insertGroup, hk]] at hp
      rcases List.mem_cons.mp hp with hp | hp
      · exact Or.inr (Or.inl ⟨q, by simp, hk, hp⟩)
      · exact Or.inl (by simp [hp])
    · rw [show insertGroup k c (q :: rest) = q :: insertGroup k c rest by
        simp [insertGroup, hk]] at hp
      rcases List.mem_cons.mp hp with hp | hp
      · exact Or.inl (by simp [hp])
      · rcases ih p hp with h | ⟨q', hq', hqk, hpe⟩ | h
        · exact Or.inl (by simp [h])
        · exact Or.inr (Or.inl ⟨q', by simp [hq'], hqk, hpe⟩)
        · exact Or.inr (Or.inr h)

/-- When the walked commits are strictly decreasing in commit time (the
`GIT_SORT_TIME` order) and the initial groups respect that order relative to
the remaining commits, every collected group is non-empty and strictly
decreasing in commit time (walk order, newest first). -/
theorem walk_data_sorted (name : String) (now : Int) (cs : List Commit) :
    ∀ (k : Nat) (data : Groups) (tr : List Event),
      cs.Pairwise (fun a b => b.commitTime < a.commitTime) →
      (∀ p ∈ data, p.2 ≠ [] ∧
        p.2.Pairwise (fun a b => b.commitTime < a.commitTime) ∧
        ∀ x ∈ p.2, ∀ c ∈ cs, c.commitTime < x.commitTime) →
      ∀ p ∈ (walkFrom name now k cs data tr).1,
        p.2 ≠ [] ∧ p.2.Pairwise (fun a b => b.commitTime < a.commitTime) := by
  induction cs with
  | nil =>
    intro k data tr _ hinv p hp
    rw [show walkFrom name now k [] data tr = (data, tr) from rfl] at hp
    exact ⟨(hinv p hp).1, (hinv p hp).2.1⟩
  | cons c rest ih =>
    intro k data tr hsorted hinv
    have hsr : rest.Pairwise (fun a b => b.commitTime < a.commitTime) :=
      (List.pairwise_cons.mp hsorted).2
    have hcr : ∀ r ∈ rest, r.commitTime < c.commitTime :=
      (List.pairwise_cons.mp hsorted).1
    have hinvr : ∀ p ∈ data, p.2 ≠ [] ∧
        p.2.Pairwise (fun a b => b.commitTime < a.commitTime) ∧
        ∀ x ∈ p.2, ∀ c' ∈ rest, c'.commitTime < x.commitTime :=
      fun p hp => ⟨(hinv p hp).1, (hinv p hp).2.1,
        fun x hx c' hc' => (hinv p hp).2.2 x hx c' (List.mem_cons_of_mem c hc')⟩
    by_cases hp : 1 < c.parentCount
    · rw [show walkFrom name now k (c :: rest) data tr
          = walkFrom name now (k + 1) rest data tr by simp [walkFrom, hp]]
      exact ih (k + 1) data tr hsr hinvr
    · by_cases ht : c.commitTime < cutoff now
      · intro p hp2
        rw [show walkFrom name now k (c :: rest) data tr = (data, tr) by
          simp [walkFrom, hp, ht]] at hp2
        exact ⟨(hinv p hp2).1, (hinv p hp2).2.1⟩
      · by_cases hs : c.specExists
        · cases hq : c.queryResult with
          | ok out =>
            rw [show walkFrom name now k (c :: rest) data tr
                = walkFrom name now (k + 1) rest
                    (if c.changedFiles.length ≠ 0 then
                      if ignoreFlag c.changedFiles = false then
                        insertGroup (parseQueryOutput out) c data
                      else data
                     else data)
                    (tr ++ [Event.checkout k, Event.query k]) by
              simp [walkFrom, run_command, hp, ht, hs, hq]]
            by_cases hlen : c.changedFiles.length ≠ 0
            · by_cases hign : ignoreFlag c.changedFiles = false
              · rw [if_pos hlen, if_pos hign]
                apply ih (k + 1) _ _ hsr
                intro p hp2
                rcases mem_insertGroup_cases (parseQueryOutput out) c data p hp2 with
                  h | ⟨q, hq', _, hpe⟩ | h
                · exact hinvr p h
                · subst hpe
                  refine ⟨by simp, ?_, ?_⟩
                  · rw [List.pairwise_append]
                    refine ⟨(hinv q hq').2.1, List.pairwise_singleton _ _, ?_⟩
                    intro a ha b hb
                    simp only [List.mem_singleton] at hb
                    rw [hb]
                    exact (hinv q hq').2.2 a ha c (by simp)
                  · intro x hx c' hc'
                    simp only [List.mem_append, List.mem_singleton] at hx
                    rcases hx with hx | hx
                    · exact (hinv q hq').2.2 x hx c' (List.mem_cons_of_mem c hc')
                    · subst hx
                      exact hcr c' hc'
                · subst h
                  refine ⟨by simp, List.pairwise_singleton _ _, ?_⟩
                  intro x hx c' hc'
                  simp only [List.mem_singleton] at hx
                  subst hx
                  exact hcr c' hc'
              · rw [if_pos hlen, if_neg hign]
                exact ih (k + 1) data _ hsr hinvr
            · rw [if_neg hlen]
              exact ih (k + 1) data _ hsr hinvr
          | exitNonzero code out err =>
            rw [show walkFrom name now k (c :: rest) data tr
                = walkFrom name now (k + 1) rest data
                    (tr ++ [Event.checkout k, Event.query k] ++
                      [Event.logCmdFail (String.intercalate " " (rpm_command name))
                        code out err]) by
              simp [walkFrom, run_command, hp, ht, hs, hq]]
            exact ih (k + 1) data _ hsr hinvr
          | invocationError =>
            rw [show walkFrom name now k (c :: rest) data tr
                = walkFrom name now (k + 1) rest data
                    (tr ++ [Event.checkout k, Event.query k] ++ []) by
              simp [walkFrom, run_command, hp, ht, hs, hq]]
            exact ih (k + 1) data _ hsr hinvr
        · intro p hp2
          rw [show walkFrom name now k (c :: rest) data tr
              = (data, tr ++ [Event.checkout k, Event.bail]) by
            simp [walkFrom, hp, ht, hs]] at hp2
          exact ⟨(hinv p hp2).1, (hinv p hp2).2.1⟩

/-- The source's `last_commit = idx + 1 == len(commits)` marking coincides
with marking render position `len(commits) - 1`. -/
theorem renderGo_eq_renderGoAt (fill : String → String) (nvr : List String)
    (total : Nat) :
    ∀ (l : List Commit) (idx : Nat), idx + l.length = total →
      renderGo fill nvr total idx l = renderGoAt fill nvr (total - 1) idx l := by
  intro l
  induction l with
  | nil => intro idx _; rfl
  | cons c rest ih =>
    intro idx hlen
    have hiff : (idx + 1 = total) ↔ (idx = total - 1) := by
      simp only [List.length_cons] at hlen
      omega
    show (do
        let e ← renderEntryLines fill nvr (idx + 1 = total) c
        let r ← renderGo fill nvr total (idx + 1) rest
        Except.ok (e ++ r)) = (do
        let e ← renderEntryLines fill nvr (idx = total - 1) c
        let r ← renderGoAt fill nvr (total - 1) (idx + 1) rest
        Except.ok (e ++ r))
    rw [show (decide (idx + 1 = total)) = (decide (idx = total - 1)) from
      decide_eq_decide.mpr hiff]
    rw [ih (idx + 1) (by simp only [List.length_cons] at hlen; omega)]

/-- **C1 counterexample**: the claim fails as stated.  In `ex1` both commits
resolve to the triple `("pkg","1.0","1")` and form one group; the group is
rendered oldest-to-newest, but the ` - 1.0-1` suffix lands on the header of
the chronologically *newest* retained commit (the last rendered entry), not
on the header of the oldest one as the claim requires. -/
theorem c1_counterexample : ¬ C1Claim id ex1 := by
  unfold C1Claim
  decide

/-- **C1 (amended)**: for every rendered changelog group (under the walk
order's newest-first sorting), the entries of the group are rendered
oldest-to-newest — the render traverses the reverse of the collected,
newest-first group list — and exactly one header line carries the
` - <version>-<release>` suffix: the header of the chronologically *newest*
retained commit of the group, which sits at the last render position
(`renderGroupAt` marks exactly position `len - 1` of the reversed list);
every other header has no suffix. -/
theorem c1_suffix_on_newest (fill : String → String) (inp : RunInput)
    (hsorted : inp.commits.Pairwise (fun a b => b.commitTime < a.commitTime)) :
    ∀ p ∈ walkData inp, ∃ cnew : Commit,
      p.2.head? = some cnew ∧
      (∀ c ∈ p.2, c.commitTime ≤ cnew.commitTime) ∧
      p.2.reverse.getLast? = some cnew ∧
      renderGroup fill p.1 p.2 = renderGroupAt fill p.1 (p.2.length - 1) p.2 := by
  intro p hp
  have hg := walk_data_sorted inp.name inp.now inp.commits 0 [] [] hsorted
    (fun q hq => absurd hq (by simp)) p hp
  rcases hne : p.2 with _ | ⟨c0, rest⟩
  · rw [hne] at hg
    exact absurd rfl hg.1
  · rw [hne] at hg
    refine ⟨c0, rfl, ?_, ?_, ?_⟩
    · intro c hc
      rcases List.mem_cons.mp hc with hc | hc
      · exact le_of_eq (congrArg Commit.commitTime hc)
      · exact le_of_lt ((List.pairwise_cons.mp hg.2).1 c hc)
    · rw [List.getLast?_reverse]
      simp
    · unfold renderGroup renderGroupAt
      exact renderGo_eq_renderGoAt fill p.1 (c0 :: rest).length
        (c0 :: rest).reverse 0 (by simp)

/-- Witness for the amended C1 at `ex1`: its single group holds the two
commits newest-first; the newest is the head, dominates the group, closes the
render order, and receives the suffix position. -/
theorem c1_suffix_on_newest_witness : ∃ cnew : Commit,
    (List.head? [baseCommit,
      { baseCommit with commitTime := 1598000000, message := "Initial import" }])
      = some cnew ∧
    (∀ c ∈ [baseCommit,
      { baseCommit with commitTime := 1598000000, message := "Initial import" }],
        c.commitTime ≤ cnew.commitTime) ∧
    (List.getLast? (List.reverse [baseCommit,
      { baseCommit with commitTime := 1598000000, message := "Initial import" }]))
      = some cnew ∧
    renderGroup id ["pkg", "1.0", "1"]
        [baseCommit,
         { baseCommit with commitTime := 1598000000, message := "Initial import" }]
      = renderGroupAt id ["pkg", "1.0", "1"] 1
        [baseCommit,
         { baseCommit with commitTime := 1598000000, message := "Initial import" }] :=
  c1_suffix_on_newest id ex1 (by decide)
    (["pkg", "1.0", "1"],
      [baseCommit,
       { baseCommit with commitTime := 1598000000, message := "Initial import" }])
    (by decide)

/-- The suffixed header indexes `nvr[1]` and `nvr[2]`: with fewer than three
fields it raises `IndexError`. -/
theorem renderEntryLines_short (fill : String → String) (nvr : List String)
    (c : Commit) (h : nvr.length < 3) :
    (renderEntryLines fill nvr true c).isOk = false := by
  rcases nvr with _ | ⟨a, _ | ⟨b, _ | ⟨d, t⟩⟩⟩
  · rfl
  · rfl
  · rfl
  · simp only [List.length_cons] at h
    omega

/-- Rendering a non-empty group whose key has fewer than three fields fails:
the last entry's header raises. -/
theorem renderGo_short (fill : String → String) (nvr : List String) (total : Nat)
    (hnvr : nvr.length < 3) :
    ∀ (l : List Commit) (idx : Nat), l ≠ [] → idx + l.length = total →
      (renderGo fill nvr total idx l).isOk = false := by
  intro l
  induction l with
  | nil => intro idx h; exact absurd rfl h
  | cons c rest ih =>
    intro idx _ hlen
    cases rest with
    | nil =>
      have htot : idx + 1 = total := by simpa using hlen
      show (do
          let e ← renderEntryLines fill nvr (idx + 1 = total) c
          let r ← renderGo fill nvr total (idx + 1) []
          Except.ok (e ++ r)).isOk = false
      rw [show (decide (idx + 1 = total)) = true from decide_eq_true htot]
      rcases he : renderEntryLines fill nvr true c with e | e
      · rfl
      · exfalso
        have hshort := renderEntryLines_short fill nvr c hnvr
        rw [he] at hshort
        exact Bool.noConfusion hshort
    | cons c2 rest2 =>
      have hne : ¬ (idx + 1 = total) := by
        simp only [List.length_cons] at hlen
        omega
      show ((renderEntryLines fill nvr (idx + 1 = total) c).bind fun e =>
        (renderGo fill nvr total (idx + 1) (c2 :: rest2)).bind fun r =>
          Except.ok (e ++ r)).isOk = false
      rw [show (decide (idx + 1 = total)) = false from decide_eq_false hne]
      have hrec := ih (idx + 1) (by simp)
        (by simp only [List.length_cons] at hlen ⊢; omega)
      rcases hg : renderGo fill nvr total (idx + 1) (c2 :: rest2) with e | ls
      · rcases hee : renderEntryLines fill nvr false c with e2 | e2
        · rfl
        · rfl
      · exfalso
        rw [hg] at hrec
        exact Bool.noConfusion hrec

/-- A non-empty group under a short key fails to render. -/
theorem renderGroup_short (fill : String → String) (nvr : List String)
    (cs : List Commit) (hnvr : nvr.length < 3) (hcs : cs ≠ []) :
    (renderGroup fill nvr cs).isOk = false := by
  unfold renderGroup
  exact renderGo_short fill nvr cs.length hnvr cs.reverse 0
    (by simpa using hcs) (by simp)

/-- If any group fails to render, the whole render — and hence the run —
fails. -/
theorem renderAll_member_error (fill : String → String) :
    ∀ (gs : Groups), (∃ p ∈ gs, (renderGroup fill p.1 p.2).isOk = false) →
      (renderAll fill gs).isOk = false := by
  intro gs
  induction gs with
  | nil => rintro ⟨p, hp, _⟩; cases hp
  | cons q rest ih =>
    rintro ⟨p, hp, hbad⟩
    show ((renderGroup fill q.1 q.2).bind fun a =>
      (renderAll fill rest).bind fun b => Except.ok (a ++ b)).isOk = false
    rcases List.mem_cons.mp hp with hp | hp
    · rcases hq : renderGroup fill q.1 q.2 with e | ls
      · rfl
      · exfalso
        rw [hp, hq] at hbad
        exact Bool.noConfusion hbad
    · rcases hq : renderGroup fill q.1 q.2 with e | ls
      · rfl
      · have hrec := ih ⟨p, hp, hbad⟩
        rcases hall : renderAll fill rest with e2 | ls2
        · rfl
        · exfalso
          rw [hall] at hrec
          exact Bool.noConfusion hrec

/-- **C3 counterexample**: the claim fails as stated.  The source performs no
field-count validation: in `ex3` the malformed commit is still recorded (under
its 1-tuple key), and the run does not complete normally — rendering raises
`IndexError` on `nvr[1]`, aborting the whole run. -/
theorem c3_counterexample : ¬ C3Claim id ex3 := by
  unfold C3Claim
  decide

/-- **C3 (amended)**: there is no field-count validation.  A relevant commit
whose query output parses to the wrong field count is recorded under its
malformed tuple key, and whenever some collected group's key has fewer than
three fields, rendering fails (`IndexError` on the tuple) and the whole run
aborts instead of completing. -/
theorem c3_malformed_aborts (fill : String → String) (inp : RunInput)
    (h : ∃ p ∈ walkData inp, p.1.length < 3 ∧ p.2 ≠ []) :
    (produce_changelog fill inp).1.isOk = false := by
  show (renderAll fill (walkResult inp).1).isOk = false
  rcases h with ⟨p, hp, hlen, hne⟩
  exact renderAll_member_error fill (walkResult inp).1
    ⟨p, hp, renderGroup_short fill p.1 p.2 hlen hne⟩

/-- Witness for the amended C3 at `ex3`: the malformed group's key is the
1-tuple and the run's rendering fails. -/
theorem c3_malformed_aborts_witness : (produce_changelog id ex3).1.isOk = false :=
  c3_malformed_aborts id ex3
    ⟨(["pkg 1.0 1"],
      [{ baseCommit with
          commitTime := 1598000000
          queryResult := QueryResult.ok "pkg 1.0 1.fc33\n"
          message := "Busted metadata" }]),
      by decide, by decide, by decide⟩

theorem string_mk_data (s : String) : String.mk s.data = s := String.ext rfl

theorem data_ne_nil {s : String} (h : s ≠ "") : s.data ≠ [] := by
  intro h2
  exact h (String.ext (by rw [h2]))

theorem dropWhile_append_of_mem {α : Type} (p : α → Bool) :
    ∀ (xs ys : List α), (∃ x ∈ xs, p x = false) →
      (xs ++ ys).dropWhile p = xs.dropWhile p ++ ys := by
  intro xs
  induction xs with
  | nil => rintro ys ⟨x, hx, _⟩; cases hx
  | cons c t ih =>
    rintro ys ⟨x, hx, hpx⟩
    by_cases hc : p c = true
    · have hxt : x ∈ t := by
        rcases List.mem_cons.mp hx with hx | hx
        · rw [hx] at hpx; rw [hpx] at hc; cases hc
        · exact hx
      show ((c :: t) ++ ys).dropWhile p = (c :: t).dropWhile p ++ ys
      rw [List.cons_append, List.dropWhile_cons, List.dropWhile_cons, hc]
      simp only [if_true]
      exact ih ys ⟨x, hxt, hpx⟩
    · simp only [Bool.not_eq_true] at hc
      rw [List.cons_append, List.dropWhile_cons, List.dropWhile_cons, hc]
      simp

/-- Dropping up to the last `'.'` (first of the reversed list): the remainder
starts with `'.'` and its tail draws from the original list. -/
theorem dropWhile_dot (xs : List Char) (h : '.' ∈ xs) :
    ∃ t, xs.dropWhile (fun c => c ≠ '.') = '.' :: t ∧ ∀ x ∈ t, x ∈ xs := by
  induction xs with
  | nil => cases h
  | cons c rest ih =>
    by_cases hc : c = '.'
    · subst hc
      exact ⟨rest, by rw [List.dropWhile_cons]; simp, fun x hx => by simp [hx]⟩
    · have hr : '.' ∈ rest := by
        rcases List.mem_cons.mp h with h | h
        · exact absurd h.symm hc
        · exact h
      obtain ⟨t, ht, hmem⟩ := ih hr
      refine ⟨t, ?_, fun x hx => by simp [hmem x hx]⟩
      rw [List.dropWhile_cons]
      have hpc : decide (¬ c = '.') = true := by simp [hc]
      simp only [hpc, if_true]
      exact ht

theorem takeWhile_all {α : Type} (p : α → Bool) :
    ∀ (xs : List α), (∀ x ∈ xs, p x = true) → xs.takeWhile p = xs := by
  intro xs
  induction xs with
  | nil => intro _; rfl
  | cons c t ih =>
    intro h
    rw [List.takeWhile_cons, h c (by simp)]
    simp only [if_true]
    rw [ih (fun x hx => h x (by simp [hx]))]

/-- Splitting a separator-free chunk returns it whole. -/
theorem splitTwoSpace_no_space :
    ∀ (xs : List Char), (∀ c ∈ xs, c ≠ ' ') → splitTwoSpace xs = [xs] := by
  intro xs
  induction xs with
  | nil => intro _; rfl
  | cons c rest ih =>
    intro h
    cases rest with
    | nil => rfl
    | cons d t =>
      have hc : c ≠ ' ' := h c (by simp)
      show (if c = ' ' ∧ d = ' ' then [] :: splitTwoSpace t
            else match splitTwoSpace (d :: t) with
              | [] => [[c]]
              | g :: gs => (c :: g) :: gs) = [c :: d :: t]
      rw [if_neg (fun hcd => hc hcd.1), ih (fun x hx => h x (by simp [hx]))]

/-- Splitting off the first two-space separator after a separator-free
chunk. -/
theorem splitTwoSpace_sep :
    ∀ (xs ys : List Char), (∀ c ∈ xs, c ≠ ' ') →
      splitTwoSpace (xs ++ ' ' :: ' ' :: ys) = xs :: splitTwoSpace ys := by
  intro xs
  induction xs with
  | nil =>
    intro ys _
    show (if ' ' = ' ' ∧ ' ' = ' ' then [] :: splitTwoSpace ys
          else match splitTwoSpace (' ' :: ys) with
            | [] => [[' ']]
            | g :: gs => (' ' :: g) :: gs) = [] :: splitTwoSpace ys
    rw [if_pos ⟨rfl, rfl⟩]
  | cons c t ih =>
    intro ys h
    have hc : c ≠ ' ' := h c (by simp)
    cases t with
    | nil =>
      show (if c = ' ' ∧ ' ' = ' ' then [] :: splitTwoSpace (' ' :: ys)
            else match splitTwoSpace (' ' :: ' ' :: ys) with
              | [] => [[c]]
              | g :: gs => (c :: g) :: gs) = [c] :: splitTwoSpace ys
      rw [if_neg (fun hcd => hc hcd.1)]
      rw [show splitTwoSpace (' ' :: ' ' :: ys) = [] :: splitTwoSpace ys from by
        show (if ' ' = ' ' ∧ ' ' = ' ' then [] :: splitTwoSpace ys
              else match splitTwoSpace (' ' :: ys) with
                | [] => [[' ']]
                | g :: gs => (' ' :: g) :: gs) = [] :: splitTwoSpace ys
        rw [if_pos ⟨rfl, rfl⟩]]
    | cons d t2 =>
      show (if c = ' ' ∧ d = ' ' then [] :: splitTwoSpace (t2 ++ ' ' :: ' ' :: ys)
            else match splitTwoSpace ((d :: t2) ++ ' ' :: ' ' :: ys) with
              | [] => [[c]]
              | g :: gs => (c :: g) :: gs) = (c :: d :: t2) :: splitTwoSpace ys
      rw [if_neg (fun hcd => hc hcd.1), ih ys (fun x hx => h x (by simp [hx]))]

/-- Stripping the line `N␣␣V␣␣R\n` removes exactly the trailing newline when
the name field starts and the release field ends with non-whitespace. -/
theorem pyStripL_line (N V R : List Char) (hN : N ≠ []) (hR : R ≠ [])
    (hNh : ∀ c ∈ N, isPySpace c = false) (hRh : ∀ c ∈ R, isPySpace c = false) :
    pyStripL (N ++ ' ' :: ' ' :: (V ++ ' ' :: ' ' :: (R ++ ['\n']))) =
      N ++ ' ' :: ' ' :: (V ++ ' ' :: ' ' :: R) := by
  obtain ⟨c0, N', rfl⟩ : ∃ c0 N', N = c0 :: N' := by
    cases N with
    | nil => exact absurd rfl hN
    | cons a b => exact ⟨a, b, rfl⟩
  obtain ⟨r0, R', hRrev⟩ : ∃ r0 R', R.reverse = r0 :: R' := by
    cases hrv : R.reverse with
    | nil => exact absurd (List.reverse_eq_nil_iff.mp hrv) hR
    | cons a b => exact ⟨a, b, rfl⟩
  unfold pyStripL
  rw [show ((c0 :: N') ++ ' ' :: ' ' :: (V ++ ' ' :: ' ' :: (R ++ ['\n']))).dropWhile isPySpace
      = (c0 :: N') ++ ' ' :: ' ' :: (V ++ ' ' :: ' ' :: (R ++ ['\n'])) from by
    rw [List.cons_append, List.dropWhile_cons]
    simp [hNh c0 (by simp)]]
  have hY : ((c0 :: N') ++ ' ' :: ' ' :: (V ++ ' ' :: ' ' :: (R ++ ['\n']))).reverse
      = '\n' :: (R.reverse ++ ' ' :: ' ' :: (V.reverse ++ ' ' :: ' ' :: (c0 :: N').reverse)) := by
    simp
  rw [hY, List.dropWhile_cons, if_pos (show isPySpace '\n' = true from rfl)]
  rw [hRrev, List.cons_append, List.dropWhile_cons,
    if_neg (show ¬ isPySpace r0 = true from by
      rw [hRh r0 (List.mem_reverse.mp (by rw [hRrev]; simp))]
      exact Bool.false_ne_true)]
  rw [← List.cons_append, ← hRrev]
  simp

/-- The first line of a newline-free string is the whole string. -/
theorem firstLineL_no_newline (xs : List Char) (h : ∀ c ∈ xs, c ≠ '\n') :
    firstLineL xs = xs := by
  unfold firstLineL
  exact takeWhile_all _ xs (fun x hx => by simpa using h x hx)

/-- When the release field contains a `'.'`, `rsplit(".", 1)[0]` on the whole
line cuts inside the release field: the name and version fields pass through
unchanged, and the release field keeps its part before its last dot; that
kept part draws only on the release field's characters. -/
theorem rsplitDotHeadL_line (N V R : List Char) (hdot : '.' ∈ R) :
    rsplitDotHeadL (N ++ ' ' :: ' ' :: (V ++ ' ' :: ' ' :: R)) =
      N ++ ' ' :: ' ' :: (V ++ ' ' :: ' ' :: rsplitDotHeadL R) ∧
    ∀ x ∈ rsplitDotHeadL R, x ∈ R := by
  obtain ⟨t, ht, hmem⟩ := dropWhile_dot R.reverse (List.mem_reverse.mpr hdot)
  have hcontR : R.reverse.contains '.' = true :=
    List.elem_iff.mpr (List.mem_reverse.mpr hdot)
  have hR' : rsplitDotHeadL R = t.reverse := by
    unfold rsplitDotHeadL
    rw [if_pos hcontR, ht]
    rfl
  have hmemR : ∀ x ∈ rsplitDotHeadL R, x ∈ R := by
    rw [hR']
    intro x hx
    exact List.mem_reverse.mp (hmem x (List.mem_reverse.mp hx))
  refine ⟨?_, hmemR⟩
  have hMrev : (N ++ ' ' :: ' ' :: (V ++ ' ' :: ' ' :: R)).reverse
      = R.reverse ++ (' ' :: ' ' :: (V.reverse ++ ' ' :: ' ' :: N.reverse)) := by
    simp
  have hcontM : (N ++ ' ' :: ' ' :: (V ++ ' ' :: ' ' :: R)).reverse.contains '.' = true := by
    rw [hMrev]
    exact List.elem_iff.mpr (List.mem_append.mpr (Or.inl (List.mem_reverse.mpr hdot)))
  rw [hR']
  unfold rsplitDotHeadL
  rw [if_pos hcontM, hMrev]
  rw [dropWhile_append_of_mem _ R.reverse _
    ⟨'.', List.mem_reverse.mpr hdot, by simp⟩]
  rw [ht, List.cons_append]
  rw [show ∀ (l : List Char), ('.' :: l).drop 1 = l from fun l => rfl]
  simp

/-- **C2 counterexample**: the claim fails as stated.  `rsplit(".", 1)` acts
on the whole line, not on the release field: on the well-formed output
`pkg  1.0  1` (release without a dot) the last-dot strip removes `.0  1` from
the *version*, leaving the 2-tuple `("pkg", "1")` instead of the claimed
`("pkg", "1.0", "1")`. -/
theorem c2_counterexample : ¬ C2Claim := by
  intro h
  exact absurd (h "pkg" "1.0" "1" (by decide) (by decide) (by decide)) (by decide)

/-- **C2 (amended)**: for a metadata-query output line
`name␣␣version␣␣release` built from non-empty whitespace-free fields *whose
release field contains a `'.'`*, the parsed tuple is `(name, version,
release')` with `release'` the release minus its trailing `.`-delimited
suffix, and name and version unchanged.  (When the release has no dot, the
strip instead cuts at the last dot of the whole line, mangling an earlier
field — see the counterexample.) -/
theorem c2_release_strip (n v r : String)
    (hn : goodFieldB n = true) (hv : goodFieldB v = true) (hr : goodFieldB r = true)
    (hdot : '.' ∈ r.data) :
    parseQueryOutput (n ++ "  " ++ v ++ "  " ++ r ++ "\n")
      = [n, v, stripReleaseSuffix r] := by
  have unpack : ∀ s : String, goodFieldB s = true →
      s.data ≠ [] ∧ ∀ c ∈ s.data, isPySpace c = false := by
    intro s hs
    unfold goodFieldB at hs
    rw [Bool.and_eq_true] at hs
    refine ⟨data_ne_nil (by simpa using hs.1), ?_⟩
    intro c hc
    simpa using (List.all_eq_true.mp hs.2) c hc
  obtain ⟨hnN, hnA⟩ := unpack n hn
  obtain ⟨hvN, hvA⟩ := unpack v hv
  obtain ⟨hrN, hrA⟩ := unpack r hr
  have hspace : ∀ (s : List Char), (∀ c ∈ s, isPySpace c = false) →
      ∀ c ∈ s, c ≠ ' ' := by
    intro s hs c hc he
    have h2 := hs c hc
    rw [he] at h2
    exact Bool.noConfusion h2
  have hL : (n ++ "  " ++ v ++ "  " ++ r ++ "\n").data
      = n.data ++ ' ' :: ' ' :: (v.data ++ ' ' :: ' ' :: (r.data ++ ['\n'])) := by
    have h2 : ("  " : String).data = [' ', ' '] := rfl
    have h3 : ("\n" : String).data = ['\n'] := rfl
    simp [String.data_append, h2, h3]
  have hnoNL : ∀ c ∈ (n.data ++ ' ' :: ' ' :: (v.data ++ ' ' :: ' ' :: r.data)),
      c ≠ '\n' := by
    intro c hc heqn
    subst heqn
    rcases List.mem_append.mp hc with h | h
    · exact absurd (hnA _ h) (by decide)
    · rcases List.mem_cons.mp h with h | h
      · exact absurd h (by decide)
      · rcases List.mem_cons.mp h with h | h
        · exact absurd h (by decide)
        · rcases List.mem_append.mp h with h | h
          · exact absurd (hvA _ h) (by decide)
          · rcases List.mem_cons.mp h with h | h
            · exact absurd h (by decide)
            · rcases List.mem_cons.mp h with h | h
              · exact absurd h (by decide)
              · exact absurd (hrA _ h) (by decide)
  obtain ⟨heq, hmemR'⟩ := rsplitDotHeadL_line n.data v.data r.data hdot
  unfold parseQueryOutput
  rw [hL, pyStripL_line n.data v.data r.data hnN hrN hnA hrA,
    firstLineL_no_newline _ hnoNL, heq,
    splitTwoSpace_sep n.data _ (hspace _ hnA),
    splitTwoSpace_sep v.data _ (hspace _ hvA),
    splitTwoSpace_no_space _ (fun c hc => hspace _ hrA c (hmemR' c hc))]
  simp only [List.map_cons, List.map_nil, string_mk_data]
  rfl

/-- Witness for the amended C2: a release field with a distro tag is stripped
to its part before the last dot, name and version untouched. -/
theorem c2_release_strip_witness :
    parseQueryOutput ("pkg" ++ "  " ++ "1.0" ++ "  " ++ "1.fc33" ++ "\n")
      = ["pkg", "1.0", stripReleaseSuffix "1.fc33"] :=
  c2_release_strip "pkg" "1.0" "1.fc33" (by decide) (by decide) (by decide) (by decide)

/-! ### Claims -/

/-- **C7**: at every commit where the metadata-query subprocess exits with
non-zero status, the failure is logged with the command, exit code and the
captured stdout and stderr, no entry is recorded for that commit (the groups
accumulator is passed on unchanged), and the walk continues with the next
commit; the failure never escapes the per-commit handler. -/
theorem c7_query_failure_logged_and_skipped (name : String) (now : Int) (k : Nat)
    (c : Commit) (rest : List Commit) (data : Groups) (tr : List Event)
    (code : Int) (out err : String)
    (hpar : c.parentCount ≤ 1) (htime : ¬ c.commitTime < cutoff now)
    (hspec : c.specExists = true)
    (hq : c.queryResult = QueryResult.exitNonzero code out err) :
    walkFrom name now k (c :: rest) data tr =
      walkFrom name now (k + 1) rest data
        (tr ++ [Event.checkout k, Event.query k,
          Event.logCmdFail (String.intercalate " " (rpm_command name)) code out err]) := by
  have hp : ¬ 1 < c.parentCount := by omega
  simp [walkFrom, run_command, hq, hp, htime, hspec, List.append_assoc]

/-- Witness for C7 at a concrete commit whose `rpm` invocation exits 1. -/
theorem c7_query_failure_logged_and_skipped_witness :
    walkFrom "pkg" 1600000000 0
      [{ baseCommit with
          queryResult := QueryResult.exitNonzero 1 "" "error: parse error\n" }] [] [] =
    walkFrom "pkg" 1600000000 1 [] []
      [Event.checkout 0, Event.query 0,
       Event.logCmdFail "rpm --qf %\x7bname\x7d  %\x7bversion\x7d  %\x7brelease\x7d\n --specfile pkg.spec"
         1 "" "error: parse error\n"] :=
  c7_query_failure_logged_and_skipped "pkg" 1600000000 0 _ [] [] []
    1 "" "error: parse error\n" (by decide) (by decide) (by decide) (by decide)

/-- **C10**: every failure of the query invocation — non-zero exit or a
failure of the invocation itself such as the executable being absent — is
caught at the per-commit level: the commit contributes no entry and the walk
continues with the next commit, so no query-invocation exception aborts the
run. -/
theorem c10_any_query_error_skipped (name : String) (now : Int) (k : Nat)
    (c : Commit) (rest : List Commit) (data : Groups) (tr : List Event)
    (logs : List Event)
    (hpar : c.parentCount ≤ 1) (htime : ¬ c.commitTime < cutoff now)
    (hspec : c.specExists = true)
    (hq : run_command (rpm_command name) c.queryResult = (Except.error (), logs)) :
    walkFrom name now k (c :: rest) data tr =
      walkFrom name now (k + 1) rest data
        (tr ++ [Event.checkout k, Event.query k] ++ logs) := by
  have hp : ¬ 1 < c.parentCount := by omega
  simp only [walkFrom, hp, htime, hspec, if_neg, if_pos, ite_true, ite_false,
    if_false, if_true, hq]

/-- Witness for C10 at a concrete commit whose `rpm` executable is absent
(the invocation raises before producing any exit status). -/
theorem c10_any_query_error_skipped_witness :
    walkFrom "pkg" 1600000000 0
      [{ baseCommit with queryResult := QueryResult.invocationError }] [] [] =
    walkFrom "pkg" 1600000000 1 [] [] [Event.checkout 0, Event.query 0] :=
  c10_any_query_error_skipped "pkg" 1600000000 0 _ [] [] [] []
    (by decide) (by decide) (by decide) rfl

/-- **C5**: merge commits (more than one parent) are never checked out, never
submitted to the metadata query, and never recorded in any group — so they
never appear in the rendered output, which draws only on the groups —
regardless of which files their diffs touch; and the walk continues with the
next commit: at a merge commit the walk equals the walk of the remaining
commits from the next position, with groups and trace untouched. -/
theorem c5_merge_commits_excluded (inp : RunInput) :
    ((∀ p ∈ walkData inp, ∀ c ∈ p.2, c.parentCount ≤ 1) ∧
    ∀ i (hi : i < inp.commits.length), 1 < (inp.commits.get ⟨i, hi⟩).parentCount →
      Event.checkout i ∉ (walkResult inp).2 ∧ Event.query i ∉ (walkResult inp).2) ∧
    ∀ (name : String) (now : Int) (k : Nat) (c : Commit) (rest : List Commit)
      (data : Groups) (tr : List Event), 1 < c.parentCount →
      walkFrom name now k (c :: rest) data tr = walkFrom name now (k + 1) rest data tr := by
  refine ⟨⟨?_, ?_⟩, ?_⟩
  · intro p hp c hc
    rcases walk_data_members inp.name inp.now inp.commits 0 [] [] c ⟨p, hp, hc⟩ with h | h
    · rcases h with ⟨q, hq, _⟩; cases hq
    · exact h.2.1
  · intro i hi hmerge
    constructor
    · intro hmem
      rcases walk_event_positions inp.name inp.now inp.commits 0 [] [] i
          (Or.inl hmem) with h | ⟨hj, _, hle⟩
      · rcases h with h | h <;> cases h
      · have hd : (inp.commits.get ⟨i - 0, hj⟩).parentCount ≤ 1 := hle
        have heq : (inp.commits.get ⟨i - 0, hj⟩) = inp.commits.get ⟨i, hi⟩ := by
          congr 1
        rw [heq] at hd
        omega
    · intro hmem
      rcases walk_event_positions inp.name inp.now inp.commits 0 [] [] i
          (Or.inr hmem) with h | ⟨hj, _, hle⟩
      · rcases h with h | h <;> cases h
      · have hd : (inp.commits.get ⟨i - 0, hj⟩).parentCount ≤ 1 := hle
        have heq : (inp.commits.get ⟨i - 0, hj⟩) = inp.commits.get ⟨i, hi⟩ := by
          congr 1
        rw [heq] at hd
        omega
  · intro name now k c rest data tr hmerge
    simp [walkFrom, hmerge]

/-- Witness for C5: the merge commit of `ex5` is neither checked out nor
queried, and the walk at it continues as the walk of the (empty) remainder. -/
theorem c5_merge_commits_excluded_witness :
    (Event.checkout 0 ∉ (walkResult ex5).2 ∧ Event.query 0 ∉ (walkResult ex5).2) ∧
    walkFrom "pkg" 1600000000 0
        [{ baseCommit with parentCount := 2, message := "Merge branch f32" }] [] []
      = walkFrom "pkg" 1600000000 1 [] [] [] :=
  ⟨(c5_merge_commits_excluded ex5).1.2 0 (by decide) (by decide),
   (c5_merge_commits_excluded ex5).2 "pkg" 1600000000 0
     { baseCommit with parentCount := 2, message := "Merge branch f32" } [] [] []
     (by decide)⟩

/-- **C6**: a non-merge, in-window commit whose spec file is present and whose
metadata query succeeds — reached by the walk because every earlier commit is
either a merge or is in-window with its spec file present — is recorded in the
collected groups (and hence in the output, which renders exactly the groups)
if and only if at least one changed path of its diff ends in `.spec` or
`.patch`; in particular a commit whose diff touches zero files, or only files
with other suffixes, is recorded in no group. -/
theorem c6_relevance_filter (inp : RunInput) (i : Nat) (hi : i < inp.commits.length)
    (hreach : ∀ j (hj : j < i),
      1 < (inp.commits.get ⟨j, Nat.lt_trans hj hi⟩).parentCount ∨
        (¬ (inp.commits.get ⟨j, Nat.lt_trans hj hi⟩).commitTime < cutoff inp.now ∧
          (inp.commits.get ⟨j, Nat.lt_trans hj hi⟩).specExists = true))
    (hpar : (inp.commits.get ⟨i, hi⟩).parentCount ≤ 1)
    (htime : ¬ (inp.commits.get ⟨i, hi⟩).commitTime < cutoff inp.now)
    (hspec : (inp.commits.get ⟨i, hi⟩).specExists = true)
    (hok : ∃ out, (inp.commits.get ⟨i, hi⟩).queryResult = QueryResult.ok out) :
    memData (inp.commits.get ⟨i, hi⟩) (walkData inp) ↔
      ∃ f ∈ (inp.commits.get ⟨i, hi⟩).changedFiles,
        (pyEndsWith f ".spec" || pyEndsWith f ".patch") = true := by
  constructor
  · intro hmem
    rcases walk_data_members inp.name inp.now inp.commits 0 [] [] _ hmem with h | h
    · rcases h with ⟨q, hq, _⟩; cases hq
    · exact (ignoreFlag_eq_false_iff _).mp h.2.2.2.2.2.2
  · intro hf
    have hign : ignoreFlag (inp.commits.get ⟨i, hi⟩).changedFiles = false :=
      (ignoreFlag_eq_false_iff _).mpr hf
    have hlen : (inp.commits.get ⟨i, hi⟩).changedFiles.length ≠ 0 := by
      rcases hf with ⟨f, hfm, _⟩
      intro h0
      rw [List.length_eq_zero] at h0
      rw [h0] at hfm
      cases hfm
    exact walk_records inp.name inp.now inp.commits i hi 0 [] []
      hreach hpar htime hspec hok hlen hign

/-- Witness for C6: the head commit of `ex1` touches `pkg.spec` and is
recorded in a group. -/
theorem c6_relevance_filter_witness : memData baseCommit (walkData ex1) :=
  (c6_relevance_filter ex1 0 (by decide)
      (fun j hj => absurd hj (Nat.not_lt_zero j))
      (by decide) (by decide) (by decide)
      ⟨"pkg  1.0  1.fc33\n", rfl⟩).mpr
    ⟨"pkg.spec", by decide, by decide⟩

/-- **C4 counterexample**: the claim fails as stated.  In `ex4` the first
visited commit (a merge commit) is strictly older than the cutoff, yet the
walk does not terminate there: the merge check precedes the recency check, so
the commit is skipped with `continue` and the next (recent) commit is still
examined and recorded, unlike the run truncated before the old commit. -/
theorem c4_counterexample : ¬ C4Claim ex4 := by
  intro h
  exact absurd (h 0 (by decide)) (by decide)

/-- **C4 (amended)**: the walk terminates, without raising, at the first
visited *non-merge* commit whose timestamp is strictly older than now minus
730 days, examining no earlier commits (the run equals the run over the
truncated sequence); merge commits older than the cutoff are skipped without
terminating the walk, and a commit at or after the cutoff never causes
termination by recency (it can only be skipped, processed, or stop the walk
via the missing-spec exit, per the reachability hypothesis). -/
theorem c4_cutoff_terminates (inp : RunInput) (i : Nat)
    (hi : i < inp.commits.length)
    (hreach : ∀ j (hj : j < i),
      1 < (inp.commits.get ⟨j, Nat.lt_trans hj hi⟩).parentCount ∨
        (¬ (inp.commits.get ⟨j, Nat.lt_trans hj hi⟩).commitTime < cutoff inp.now ∧
          (inp.commits.get ⟨j, Nat.lt_trans hj hi⟩).specExists = true))
    (hpar : (inp.commits.get ⟨i, hi⟩).parentCount ≤ 1)
    (hold : (inp.commits.get ⟨i, hi⟩).commitTime < cutoff inp.now) :
    walkResult inp = walkResult { inp with commits := inp.commits.take i } := by
  unfold walkResult
  exact walk_take_cutoff inp.name inp.now inp.commits i hi 0 [] [] hreach hpar hold

/-- Witness for the amended C4 at `ex4b`: the walk stops at the old commit in
position 1. -/
theorem c4_cutoff_terminates_witness :
    walkResult ex4b = walkResult { ex4b with commits := ex4b.commits.take 1 } := by
  have hi : 1 < ex4b.commits.length := by decide
  exact c4_cutoff_terminates ex4b 1 hi
    (by
      intro j hj
      have hj0 : j = 0 := by omega
      subst hj0
      refine Or.inr ⟨?_, ?_⟩
      · show ¬ baseCommit.commitTime < cutoff ex4b.now
        decide
      · show baseCommit.specExists = true
        decide)
    (by
      show ({ baseCommit with commitTime := 1500000000 } : Commit).parentCount ≤ 1
      decide)
    (by
      show ({ baseCommit with commitTime := 1500000000 } : Commit).commitTime <
        cutoff ex4b.now
      decide)

/-- **C8**: when the walk reaches a non-merge, in-window commit after whose
checkout the `<name>.spec` file is absent, the walk terminates immediately
(the run's collected groups are those of the sequence truncated before that
commit) and the rendered output is exactly the rendering of every group
collected before that point. -/
theorem c8_missing_spec_bails (fill : String → String) (inp : RunInput) (i : Nat)
    (hi : i < inp.commits.length)
    (hreach : ∀ j (hj : j < i),
      1 < (inp.commits.get ⟨j, Nat.lt_trans hj hi⟩).parentCount ∨
        (¬ (inp.commits.get ⟨j, Nat.lt_trans hj hi⟩).commitTime < cutoff inp.now ∧
          (inp.commits.get ⟨j, Nat.lt_trans hj hi⟩).specExists = true))
    (hpar : (inp.commits.get ⟨i, hi⟩).parentCount ≤ 1)
    (htime : ¬ (inp.commits.get ⟨i, hi⟩).commitTime < cutoff inp.now)
    (hspec : (inp.commits.get ⟨i, hi⟩).specExists = false) :
    (produce_changelog fill inp).1 =
      renderAll fill (walkData { inp with commits := inp.commits.take i }) := by
  show renderAll fill (walkResult inp).1 = _
  unfold walkData walkResult
  exact congrArg (renderAll fill)
    (walk_take_bail inp.name inp.now inp.commits i hi 0 [] [] hreach hpar htime hspec)

/-- Witness for C8 at `ex8`: the output is the rendering of the groups
collected from the single commit before the bail. -/
theorem c8_missing_spec_bails_witness :
    (produce_changelog id ex8).1 =
      renderAll id (walkData { ex8 with commits := ex8.commits.take 1 }) := by
  have hi : 1 < ex8.commits.length := by decide
  exact c8_missing_spec_bails id ex8 1 hi
    (by
      intro j hj
      have hj0 : j = 0 := by omega
      subst hj0
      refine Or.inr ⟨?_, ?_⟩
      · show ¬ baseCommit.commitTime < cutoff ex8.now
        decide
      · show baseCommit.specExists = true
        decide)
    (by
      show ({ baseCommit with
          commitTime := 1598500000
          specExists := false
          message := "Before packaging" } : Commit).parentCount ≤ 1
      decide)
    (by
      show ¬ ({ baseCommit with
          commitTime := 1598500000
          specExists := false
          message := "Before packaging" } : Commit).commitTime < cutoff ex8.now
      decide)
    (by
      show ({ baseCommit with
          commitTime := 1598500000
          specExists := false
          message := "Before packaging" } : Commit).specExists = false
      decide)

/-- **C9**: the temporary workspace is acquired once, the repository copied
into it once, per-commit checkouts mutate only the copy (the caller's source
repository state is unchanged by the whole trace), and the temporary
directory is released exactly once, as the final effect, on every run —
including runs whose rendering stage fails, since the trace does not depend
on the render outcome. -/
theorem c9_tempdir_scoped (fill : String → String) (inp : RunInput) :
    (produce_changelog fill inp).2.countP isRelease = 1 ∧
    (∃ tr', (produce_changelog fill inp).2 = tr' ++ [Event.releaseTempDir]) ∧
    (produce_changelog fill inp).2.countP isAcquire = 1 ∧
    (produce_changelog fill inp).2.countP isCopytree = 1 ∧
    ∀ (σ : Type) (treeOf : Nat → σ) (fs0 : FS σ),
      (applyTrace treeOf fs0 (produce_changelog fill inp).2).source = fs0.source ∧
      (applyTrace treeOf fs0 (produce_changelog fill inp).2).temp = none := by
  obtain ⟨ex, hex, hall⟩ := walk_trace_shape inp.name inp.now inp.commits 0 [] []
  have htr : (produce_changelog fill inp).2 =
      Event.acquireTempDir :: Event.copytree :: ex ++ [Event.releaseTempDir] := by
    simp only [produce_changelog, walkResult] at *
    rw [hex]
    simp
  have hnone : ∀ p : Event → Bool, (∀ e, isWalkEvent e = true → p e = false) →
      ex.countP p = 0 := by
    intro p hpe
    exact List.countP_eq_zero.mpr fun e he => by simp [hpe e (hall e he)]
  refine ⟨?_, ⟨Event.acquireTempDir :: Event.copytree :: ex, by simpa using htr⟩, ?_, ?_, ?_⟩
  · rw [htr]
    simp [List.countP_cons, List.countP_append, isRelease,
      hnone isRelease (by intro e he; cases e <;> simp_all [isWalkEvent, isRelease])]
  · rw [htr]
    simp [List.countP_cons, List.countP_append, isAcquire,
      hnone isAcquire (by intro e he; cases e <;> simp_all [isWalkEvent, isAcquire])]
  · rw [htr]
    simp [List.countP_cons, List.countP_append, isCopytree,
      hnone isCopytree (by intro e he; cases e <;> simp_all [isWalkEvent, isCopytree])]
  · intro σ treeOf fs0
    constructor
    · exact applyTrace_source treeOf _ fs0
    · rw [htr]
      show (applyTrace treeOf fs0 ((Event.acquireTempDir :: Event.copytree :: ex) ++
        [Event.releaseTempDir])).temp = none
      unfold applyTrace
      rw [List.foldl_append]
      rfl

end Rpmautospec
